import Mathlib

/-!
Verification of the matching/scoring core and the document field extractor of
the otto product scraper (`scrape_otto.py`), via a shallow embedding of the
pure string-processing parts of the program.  Strings are modelled as
`List Char`; each Python regular expression is embedded as a dedicated
recursive matcher with the same leftmost/greedy semantics on the character
classes the program uses (ASCII plus the German letters ä ö ü ß; the Unicode
behaviour of `str.lower`, `\w`, `\d` and `\s` outside this alphabet is not
modelled, and characters outside it are handled by the surrounding rules
exactly as the program handles them).
-/

namespace Otto

abbrev Str := List Char

/-- Code point of a character (used so that all character-class reasoning is
plain natural-number arithmetic). -/
def cn (c : Char) : Nat := c.toNat

/-- The letter class `[a-zäöüß]` used throughout `scrape_otto.py`
(97–122 = a–z, 228 = ä, 246 = ö, 252 = ü, 223 = ß). -/
def isLet (c : Char) : Bool :=
  (97 ≤ cn c && cn c ≤ 122) || cn c = 228 || cn c = 246 || cn c = 252 || cn c = 223

/-- ASCII digit class `[0-9]`. -/
def isDig (c : Char) : Bool := 48 ≤ cn c && cn c ≤ 57

/-- The class `[a-z0-9äöüß]` kept by `_normalize` (everything else becomes a
space). -/
def isGood (c : Char) : Bool := isLet c || isDig c

/-- ASCII whitespace, the model of the regex class `\s`. -/
def isWS (c : Char) : Bool :=
  cn c = 32 || cn c = 9 || cn c = 10 || cn c = 13 || cn c = 11 || cn c = 12

/-- Model of Python `str.lower` on the alphabet the scraper works with:
ASCII `A`–`Z` (65–90) shift by 32, `Ä`(196) `Ö`(214) `Ü`(220) map to their
lowercase forms, `ẞ`(7838) maps to `ß`; everything else is unchanged. -/
def lowerChar (c : Char) : Char :=
  if 65 ≤ cn c && cn c ≤ 90 then Char.ofNat (cn c + 32)
  else if cn c = 196 then 'ä'
  else if cn c = 214 then 'ö'
  else if cn c = 220 then 'ü'
  else if cn c = 7838 then 'ß'
  else c

/-- `re.sub(r"([a-zäöüß])(\d)", r"\1 \2", text)`: insert a space at every
letter→digit boundary, scanning left to right (a match consumes both
characters, as `re.sub` does). -/
def splitLD : Str → Str
  | [] => []
  | [c] => [c]
  | c1 :: c2 :: r =>
    if isLet c1 && isDig c2 then c1 :: ' ' :: c2 :: splitLD r
    else c1 :: splitLD (c2 :: r)

/-- `re.sub(r"(\d)([a-zäöüß])", r"\1 \2", text)`: insert a space at every
digit→letter boundary. -/
def splitDL : Str → Str
  | [] => []
  | [c] => [c]
  | c1 :: c2 :: r =>
    if isDig c1 && isLet c2 then c1 :: ' ' :: c2 :: splitDL r
    else c1 :: splitDL (c2 :: r)

/-- `re.sub(r"[^a-z0-9äöüß]+", " ", text)`: replace every maximal run of
characters outside the kept class with a single space. -/
def squashBad : Str → Str
  | [] => []
  | c :: r =>
    let t := squashBad r
    if isGood c then c :: t
    else if t.head? = some ' ' then t else ' ' :: t

/-- `re.sub(r"\s+", " ", text)`: replace every maximal whitespace run with a
single space. -/
def squashWS : Str → Str
  | [] => []
  | c :: r =>
    let t := squashWS r
    if isWS c then
      if t.head? = some ' ' then t else ' ' :: t
    else c :: t

/-- Left part of Python `str.strip()`. -/
def trimL (s : Str) : Str := s.dropWhile isWS

/-- Python `str.strip()`: drop leading and trailing whitespace. -/
def stripWS (s : Str) : Str := ((trimL s).reverse.dropWhile isWS).reverse

/-- Embedding of `_normalize` (`scrape_otto.py` lines 300–306): lowercase,
split letter↔digit boundaries, map non-alphanumeric runs to single spaces,
collapse whitespace, trim. -/
def normalizeL (s : Str) : Str :=
  stripWS (squashWS (squashBad (splitDL (splitLD (s.map lowerChar)))))

/-- String-level wrapper of `_normalize`. -/
def normalize (s : String) : String := ⟨normalizeL s.data⟩

/-! ### Shape of normalized strings -/

/-- Characters a normalized string may contain: the kept class plus the
single separator space. -/
def okChar (c : Char) : Bool := isGood c || c = ' '

/-- The shape invariant of `_normalize` output: only lowercase letters
(a–z, äöüß), digits and spaces; no two adjacent spaces; no leading or
trailing space; and no letter directly adjacent to a digit (in either
order). -/
def NormalizedStr (s : Str) : Prop :=
  (∀ c ∈ s, okChar c = true) ∧
  List.Chain' (fun a b => (isLet a && isDig b) = false) s ∧
  List.Chain' (fun a b => (isDig a && isLet b) = false) s ∧
  List.Chain' (fun a b => ¬(a = ' ' ∧ b = ' ')) s ∧
  s.head? ≠ some ' ' ∧ s.getLast? ≠ some ' '

/-! Character-class facts. -/

theorem isDig_not_isLet {c : Char} (h : isDig c = true) : isLet c = false := by
  simp only [isDig, isLet, Bool.and_eq_true, Bool.or_eq_true, decide_eq_true_eq,
    Bool.and_eq_false_iff, Bool.or_eq_false_iff, decide_eq_false_iff_not] at *
  omega

theorem isLet_not_isDig {c : Char} (h : isLet c = true) : isDig c = false := by
  simp only [isDig, isLet, Bool.and_eq_true, Bool.or_eq_true, decide_eq_true_eq,
    Bool.and_eq_false_iff, Bool.or_eq_false_iff, decide_eq_false_iff_not] at *
  omega

theorem isGood_not_isWS {c : Char} (h : isGood c = true) : isWS c = false := by
  simp only [isGood, isLet, isDig, isWS, Bool.and_eq_true, Bool.or_eq_true,
    decide_eq_true_eq, Bool.or_eq_false_iff, Bool.and_eq_false_iff,
    decide_eq_false_iff_not] at *
  omega

theorem isGood_space : isGood ' ' = false := by decide

theorem isLet_space : isLet ' ' = false := by decide

theorem isDig_space : isDig ' ' = false := by decide

theorem isWS_space : isWS ' ' = true := by decide

theorem okChar_of_isGood {c : Char} (h : isGood c = true) : okChar c = true := by
  simp [okChar, h]

theorem okChar_space : okChar ' ' = true := by decide

/-! Head-preservation lemmas for the rewriting stages. -/

theorem splitLD_head : ∀ s : Str, (splitLD s).head? = s.head? := by
  intro s
  match s with
  | [] => rfl
  | [c] => rfl
  | c1 :: c2 :: r =>
    simp only [splitLD]
    split <;> rfl

theorem splitDL_head : ∀ s : Str, (splitDL s).head? = s.head? := by
  intro s
  match s with
  | [] => rfl
  | [c] => rfl
  | c1 :: c2 :: r =>
    simp only [splitDL]
    split <;> rfl

theorem squashBad_head (c : Char) (r : Str) :
    (squashBad (c :: r)).head? = some (if isGood c then c else ' ') := by
  simp only [squashBad]
  split
  · simp_all
  · split
    · simp_all
    · simp_all

theorem squashWS_head (c : Char) (r : Str) :
    (squashWS (c :: r)).head? = some (if isWS c then ' ' else c) := by
  simp only [squashWS]
  split
  · split
    · simp_all
    · simp_all
  · simp_all

/-! `splitLD` leaves no letter→digit adjacency; `splitDL` preserves that and
leaves no digit→letter adjacency. -/

theorem splitLD_noLD : ∀ s : Str,
    List.Chain' (fun a b => (isLet a && isDig b) = false) (splitLD s) := by
  intro s
  induction s using splitLD.induct with
  | case1 => simp [splitLD]
  | case2 c => simp [splitLD]
  | case3 c1 c2 r h ih =>
    rw [splitLD, if_pos h]
    have hd : isDig c2 = true := by
      simp only [Bool.and_eq_true] at h; exact h.2
    refine List.chain'_cons'.2 ⟨?_, List.chain'_cons'.2 ⟨?_, List.chain'_cons'.2 ⟨?_, ih⟩⟩⟩
    · intro b hb
      simp only [List.head?_cons, Option.mem_def, Option.some.injEq] at hb
      subst hb; simp [isDig_space]
    · intro b _; simp [isLet_space]
    · intro b _; simp [isDig_not_isLet hd]
  | case4 c1 c2 r h ih =>
    rw [splitLD, if_neg h]
    refine List.chain'_cons'.2 ⟨?_, ih⟩
    intro b hb
    rw [splitLD_head] at hb
    simp only [List.head?_cons, Option.mem_def, Option.some.injEq] at hb
    subst hb
    simpa using h

theorem splitDL_noDL : ∀ s : Str,
    List.Chain' (fun a b => (isDig a && isLet b) = false) (splitDL s) := by
  intro s
  induction s using splitDL.induct with
  | case1 => simp [splitDL]
  | case2 c => simp [splitDL]
  | case3 c1 c2 r h ih =>
    rw [splitDL, if_pos h]
    have hl : isLet c2 = true := by
      simp only [Bool.and_eq_true] at h; exact h.2
    refine List.chain'_cons'.2 ⟨?_, List.chain'_cons'.2 ⟨?_, List.chain'_cons'.2 ⟨?_, ih⟩⟩⟩
    · intro b hb
      simp only [List.head?_cons, Option.mem_def, Option.some.injEq] at hb
      subst hb; simp [isLet_space]
    · intro b _; simp [isDig_space]
    · intro b _; simp [isLet_not_isDig hl]
  | case4 c1 c2 r h ih =>
    rw [splitDL, if_neg h]
    refine List.chain'_cons'.2 ⟨?_, ih⟩
    intro b hb
    rw [splitDL_head] at hb
    simp only [List.head?_cons, Option.mem_def, Option.some.injEq] at hb
    subst hb
    simpa using h

theorem splitDL_preserves_noLD : ∀ s : Str,
    List.Chain' (fun a b => (isLet a && isDig b) = false) s →
    List.Chain' (fun a b => (isLet a && isDig b) = false) (splitDL s) := by
  intro s
  induction s using splitDL.induct with
  | case1 => simp [splitDL]
  | case2 c => simp [splitDL]
  | case3 c1 c2 r h ih =>
    intro hc
    rw [splitDL, if_pos h]
    have hd : isDig c1 = true := by
      simp only [Bool.and_eq_true] at h; exact h.1
    obtain ⟨h12, hc2⟩ := List.chain'_cons'.1 hc
    obtain ⟨h2h, hcr⟩ := List.chain'_cons'.1 hc2
    refine List.chain'_cons'.2 ⟨?_, List.chain'_cons'.2 ⟨?_, List.chain'_cons'.2 ⟨?_, ih hcr⟩⟩⟩
    · intro b _; simp [isDig_not_isLet hd]
    · intro b _; simp [isLet_space]
    · intro b hb
      rw [splitDL_head] at hb
      exact h2h b hb
  | case4 c1 c2 r h ih =>
    intro hc
    obtain ⟨h12, hc2⟩ := List.chain'_cons'.1 hc
    rw [splitDL, if_neg h]
    refine List.chain'_cons'.2 ⟨?_, ih hc2⟩
    intro b hb
    rw [splitDL_head] at hb
    exact h12 b hb

/-! `squashBad` leaves only kept characters and spaces, and — like
`squashWS` — preserves any adjacency constraint that can never involve a
space. -/

theorem squashBad_okChar : ∀ s : Str, ∀ c ∈ squashBad s, okChar c = true := by
  intro s
  induction s with
  | nil => simp [squashBad]
  | cons c r ih =>
    intro d hd
    simp only [squashBad] at hd
    split at hd
    · rcases List.mem_cons.1 hd with h | h
      · subst h; exact okChar_of_isGood (by assumption)
      · exact ih d h
    · split at hd
      · exact ih d hd
      · rcases List.mem_cons.1 hd with h | h
        · subst h; exact okChar_space
        · exact ih d h

theorem squashBad_chain {R : Char → Char → Prop}
    (hsp : ∀ x, R x ' ') (hps : ∀ x, R ' ' x) :
    ∀ s : Str, List.Chain' R s → List.Chain' R (squashBad s) := by
  intro s
  induction s with
  | nil => simp [squashBad]
  | cons c r ih =>
    intro hc
    obtain ⟨hhd, hr⟩ := List.chain'_cons'.1 hc
    simp only [squashBad]
    split
    · refine List.chain'_cons'.2 ⟨?_, ih hr⟩
      intro b hb
      cases r with
      | nil => simp [squashBad] at hb
      | cons h' r' =>
        rw [squashBad_head] at hb
        simp only [Option.mem_def, Option.some.injEq] at hb
        subst hb
        split
        · exact hhd h' (by simp)
        · exact hsp c
    · split
      · exact ih hr
      · refine List.chain'_cons'.2 ⟨?_, ih hr⟩
        intro b _
        exact hps b

theorem squashWS_okChar : ∀ s : Str, (∀ c ∈ s, okChar c = true) →
    ∀ c ∈ squashWS s, okChar c = true := by
  intro s
  induction s with
  | nil => simp [squashWS]
  | cons a r ih =>
    intro h d hd
    simp only [squashWS] at hd
    split at hd
    · split at hd
      · exact ih (fun e he => h e (List.mem_cons_of_mem _ he)) d hd
      · rcases List.mem_cons.1 hd with h' | h'
        · subst h'; exact okChar_space
        · exact ih (fun e he => h e (List.mem_cons_of_mem _ he)) d h'
    · rcases List.mem_cons.1 hd with h' | h'
      · subst h'; exact h _ (by simp)
      · exact ih (fun e he => h e (List.mem_cons_of_mem _ he)) d h'

theorem squashWS_chain {R : Char → Char → Prop}
    (hsp : ∀ x, R x ' ') (hps : ∀ x, R ' ' x) :
    ∀ s : Str, List.Chain' R s → List.Chain' R (squashWS s) := by
  intro s
  induction s with
  | nil => simp [squashWS]
  | cons c r ih =>
    intro hc
    obtain ⟨hhd, hr⟩ := List.chain'_cons'.1 hc
    simp only [squashWS]
    split
    · split
      · exact ih hr
      · refine List.chain'_cons'.2 ⟨?_, ih hr⟩
        intro b _
        exact hps b
    · refine List.chain'_cons'.2 ⟨?_, ih hr⟩
      intro b hb
      cases r with
      | nil => simp [squashWS] at hb
      | cons h' r' =>
        rw [squashWS_head] at hb
        simp only [Option.mem_def, Option.some.injEq] at hb
        subst hb
        split
        · exact hsp c
        · exact hhd h' (by simp)

/-- `squashWS` output never has two adjacent spaces. -/
theorem squashWS_noSS : ∀ s : Str,
    List.Chain' (fun a b => ¬(a = ' ' ∧ b = ' ')) (squashWS s) := by
  intro s
  induction s with
  | nil => simp [squashWS]
  | cons c r ih =>
    simp only [squashWS]
    split
    · split
      · exact ih
      · refine List.chain'_cons'.2 ⟨?_, ih⟩
        intro b hb
        rintro ⟨-, hb'⟩
        subst hb'
        simp_all
    · refine List.chain'_cons'.2 ⟨?_, ih⟩
      intro b hb
      rintro ⟨hc', -⟩
      subst hc'
      simp_all [isWS_space]

/-! `stripWS` facts. -/

theorem stripWS_chain {A : Char → Char → Prop} (s : Str) (h : List.Chain' A s) :
    List.Chain' A (stripWS s) := by
  unfold stripWS trimL
  have h1 : List.Chain' A (s.dropWhile isWS) := h.suffix (List.dropWhile_suffix _)
  have h2 : List.Chain' (flip A) (s.dropWhile isWS).reverse := List.chain'_reverse.mpr h1
  have h3 : List.Chain' (flip A) ((s.dropWhile isWS).reverse.dropWhile isWS) :=
    h2.suffix (List.dropWhile_suffix _)
  exact List.chain'_reverse.mpr h3

theorem stripWS_mem (s : Str) : ∀ c ∈ stripWS s, c ∈ s := by
  intro c hc
  unfold stripWS trimL at hc
  rw [List.mem_reverse] at hc
  have h1 := (@List.dropWhile_suffix Char (s.dropWhile isWS).reverse isWS).subset hc
  rw [List.mem_reverse] at h1
  exact (@List.dropWhile_suffix Char s isWS).subset h1

theorem head?_dropWhile_not (p : Char → Bool) (l : List Char) {a : Char}
    (h : (l.dropWhile p).head? = some a) : p a = false := by
  have hne : l.dropWhile p ≠ [] := by
    intro he; rw [he] at h; simp at h
  have h1 := List.head_dropWhile_not p l hne
  have h2 : (l.dropWhile p).head hne = a := by
    have := List.head?_eq_head hne
    rw [h] at this
    exact (Option.some_inj.1 this.symm)
  rwa [h2] at h1

theorem stripWS_getLast (s : Str) {c : Char} (h : (stripWS s).getLast? = some c) :
    isWS c = false := by
  unfold stripWS trimL at h
  rw [List.getLast?_reverse] at h
  exact head?_dropWhile_not _ _ h

theorem stripWS_head (s : Str) {c : Char} (h : (stripWS s).head? = some c) :
    isWS c = false := by
  unfold stripWS trimL at h
  rw [List.head?_reverse] at h
  set Z := (s.dropWhile isWS).reverse.dropWhile isWS with hZ
  obtain ⟨t, ht⟩ : Z <:+ (s.dropWhile isWS).reverse := List.dropWhile_suffix _
  have hZne : Z ≠ [] := by
    intro he; rw [he] at h; simp at h
  have h2 : ((s.dropWhile isWS).reverse).getLast? = some c := by
    rw [← ht, List.getLast?_append_of_ne_nil _ hZne]; exact h
  rw [List.getLast?_reverse] at h2
  exact head?_dropWhile_not _ _ h2

/-! The full shape invariant of `_normalize` output. -/

theorem normalizeL_normalized (s : Str) : NormalizedStr (normalizeL s) := by
  unfold normalizeL
  refine ⟨?_, ?_, ?_, ?_, ?_, ?_⟩
  · intro c hc
    exact squashWS_okChar _ (squashBad_okChar _) c (stripWS_mem _ c hc)
  · exact stripWS_chain _ (squashWS_chain (fun x => by simp [isDig_space])
      (fun x => by simp [isLet_space]) _ (squashBad_chain (fun x => by simp [isDig_space])
      (fun x => by simp [isLet_space]) _ (splitDL_preserves_noLD _ (splitLD_noLD _))))
  · exact stripWS_chain _ (squashWS_chain (fun x => by simp [isLet_space])
      (fun x => by simp [isDig_space]) _ (squashBad_chain (fun x => by simp [isLet_space])
      (fun x => by simp [isDig_space]) _ (splitDL_noDL _)))
  · exact stripWS_chain _ (squashWS_noSS _)
  · intro heq
    have := stripWS_head _ heq
    simp [isWS_space] at this
  · intro heq
    have := stripWS_getLast _ heq
    simp [isWS_space] at this

/-! `_normalize` is the identity on strings that already satisfy the shape
invariant. -/

theorem lowerChar_ok {c : Char} (h : okChar c = true) : lowerChar c = c := by
  have harith : 97 ≤ cn c ∧ cn c ≤ 122 ∨ cn c = 228 ∨ cn c = 246 ∨ cn c = 252 ∨
      cn c = 223 ∨ 48 ≤ cn c ∧ cn c ≤ 57 ∨ cn c = 32 := by
    simp only [okChar, isGood, isLet, isDig, Bool.or_eq_true, Bool.and_eq_true,
      decide_eq_true_eq] at h
    rcases h with h | h
    · tauto
    · subst h
      right; right; right; right; right; right; rfl
  unfold lowerChar
  split_ifs with h1 h2 h3 h4 h5
  · exfalso
    simp only [Bool.and_eq_true, decide_eq_true_eq] at h1
    omega
  · exfalso; omega
  · exfalso; omega
  · exfalso; omega
  · exfalso; omega
  · rfl

theorem map_id_of {f : Char → Char} : ∀ s : Str, (∀ c ∈ s, f c = c) → s.map f = s := by
  intro s
  induction s with
  | nil => simp
  | cons a r ih =>
    intro h
    simp only [List.map_cons]
    rw [h a (by simp), ih (fun c hc => h c (by simp [hc]))]

theorem splitLD_id : ∀ s : Str,
    List.Chain' (fun a b => (isLet a && isDig b) = false) s → splitLD s = s := by
  intro s
  induction s using splitLD.induct with
  | case1 => simp [splitLD]
  | case2 c => simp [splitLD]
  | case3 c1 c2 r h ih =>
    intro hc
    exfalso
    obtain ⟨hh, -⟩ := List.chain'_cons'.1 hc
    have := hh c2 (by simp)
    simp [h] at this
  | case4 c1 c2 r h ih =>
    intro hc
    rw [splitLD, if_neg h, ih (List.chain'_cons'.1 hc).2]

theorem splitDL_id : ∀ s : Str,
    List.Chain' (fun a b => (isDig a && isLet b) = false) s → splitDL s = s := by
  intro s
  induction s using splitDL.induct with
  | case1 => simp [splitDL]
  | case2 c => simp [splitDL]
  | case3 c1 c2 r h ih =>
    intro hc
    exfalso
    obtain ⟨hh, -⟩ := List.chain'_cons'.1 hc
    have := hh c2 (by simp)
    simp [h] at this
  | case4 c1 c2 r h ih =>
    intro hc
    rw [splitDL, if_neg h, ih (List.chain'_cons'.1 hc).2]

theorem squashBad_id : ∀ s : Str, (∀ c ∈ s, okChar c = true) →
    List.Chain' (fun a b => ¬(a = ' ' ∧ b = ' ')) s → squashBad s = s := by
  intro s
  induction s with
  | nil => intro _ _; rfl
  | cons a r ih =>
    intro hok hss
    obtain ⟨hh, hr⟩ := List.chain'_cons'.1 hss
    have hrid : squashBad r = r := ih (fun c hc => hok c (by simp [hc])) hr
    simp only [squashBad, hrid]
    by_cases hg : isGood a = true
    · rw [if_pos hg]
    · have ha : a = ' ' := by
        have := hok a (by simp)
        simp only [okChar, Bool.or_eq_true, decide_eq_true_eq] at this
        tauto
      subst ha
      rw [if_neg hg, if_neg]
      intro hhead
      exact hh ' ' hhead ⟨rfl, rfl⟩

theorem squashWS_id : ∀ s : Str, (∀ c ∈ s, okChar c = true) →
    List.Chain' (fun a b => ¬(a = ' ' ∧ b = ' ')) s → squashWS s = s := by
  intro s
  induction s with
  | nil => intro _ _; rfl
  | cons a r ih =>
    intro hok hss
    obtain ⟨hh, hr⟩ := List.chain'_cons'.1 hss
    have hrid : squashWS r = r := ih (fun c hc => hok c (by simp [hc])) hr
    simp only [squashWS, hrid]
    by_cases hw : isWS a = true
    · have ha : a = ' ' := by
        have := hok a (by simp)
        simp only [okChar, Bool.or_eq_true, decide_eq_true_eq] at this
        rcases this with hg | hsp
        · rw [isGood_not_isWS hg] at hw; exact absurd hw (by simp)
        · exact hsp
      subst ha
      rw [if_pos hw, if_neg]
      intro hhead
      exact hh ' ' hhead ⟨rfl, rfl⟩
    · rw [if_neg hw]

theorem trimL_id : ∀ s : Str, (∀ c ∈ s, okChar c = true) →
    s.head? ≠ some ' ' → trimL s = s := by
  intro s hok hhd
  cases s with
  | nil => rfl
  | cons a r =>
    unfold trimL
    rw [List.dropWhile_cons, if_neg]
    intro hw
    have := hok a (by simp)
    simp only [okChar, Bool.or_eq_true, decide_eq_true_eq] at this
    rcases this with hg | hsp
    · rw [isGood_not_isWS hg] at hw; exact absurd hw (by simp)
    · subst hsp; exact hhd (by simp)

theorem stripWS_id : ∀ s : Str, (∀ c ∈ s, okChar c = true) →
    s.head? ≠ some ' ' → s.getLast? ≠ some ' ' → stripWS s = s := by
  intro s hok hhd hlast
  unfold stripWS
  rw [trimL_id s hok hhd]
  have h2 : s.reverse.dropWhile isWS = s.reverse := by
    have := trimL_id s.reverse (fun c hc => hok c (List.mem_reverse.1 hc))
      (by rw [List.head?_reverse]; exact hlast)
    simpa [trimL] using this
  rw [h2, List.reverse_reverse]

theorem normalizeL_id (s : Str) (h : NormalizedStr s) : normalizeL s = s := by
  obtain ⟨hok, hLD, hDL, hSS, hhd, hlast⟩ := h
  unfold normalizeL
  rw [map_id_of s (fun c hc => lowerChar_ok (hok c hc)), splitLD_id s hLD,
    splitDL_id s hDL, squashBad_id s hok hSS, squashWS_id s hok hSS,
    stripWS_id s hok hhd hlast]

/-- C4: the normalization function `_normalize` is idempotent: for every
input string `s`, `normalize (normalize s) = normalize s`. -/
theorem C4_normalize_idempotent (s : String) :
    normalize (normalize s) = normalize s := by
  show (⟨normalizeL (normalizeL s.data)⟩ : String) = ⟨normalizeL s.data⟩
  rw [normalizeL_id _ (normalizeL_normalized s.data)]

/-- C10: for every input string, the output of `_normalize` contains only
lowercase letters a–z, the extended letters äöüß, and digits, with
consecutive tokens separated by exactly one space (no two adjacent spaces),
no leading or trailing whitespace, and no letter character directly
adjacent to a digit character (`NormalizedStr` states exactly these five
conditions). -/
theorem C10_normalize_shape (s : String) : NormalizedStr (normalize s).data :=
  normalizeL_normalized s.data

/-! ### Whole-word search and tokenization -/

/-- The regex word class `\w` on the modelled alphabet: letters (including
the uppercase range, which regex `\w` contains even though normalized text
is lowercase), digits and underscore. -/
def isWordChar (c : Char) : Bool :=
  isLet c || isDig c || cn c = 95 || (65 ≤ cn c && cn c ≤ 90)

/-- A `\b` word boundary holds next to this (optional) neighbouring
character, for a token made of word characters. -/
def boundaryOk : Option Char → Bool
  | none => true
  | some c => !isWordChar c

/-- `\b t \b` matches at the start of suffix `s` whose preceding character
is `prev`. -/
def wwAt (t : Str) (prev : Option Char) (s : Str) : Bool :=
  t.isPrefixOf s && boundaryOk prev && boundaryOk ((s.drop t.length).head?)

def containsWWAux (t : Str) : Option Char → Str → Bool
  | prev, [] => wwAt t prev []
  | prev, c :: r => wwAt t prev (c :: r) || containsWWAux t (some c) r

/-- Embedding of `re.search(rf"\b{t}\b", s)` (as a truth value) for a token
`t` of word characters. -/
def hasWW (t s : Str) : Bool := containsWWAux t none s

/-- Worker for `pysplit`: `cur` is the (reversed) word being accumulated. -/
def pysplitGo (cur : Str) : Str → List Str
  | [] => if cur = [] then [] else [cur.reverse]
  | c :: r =>
    if isWS c then
      if cur = [] then pysplitGo [] r else cur.reverse :: pysplitGo [] r
    else pysplitGo (c :: cur) r

/-- Python `str.split()` (no argument): split on whitespace runs, dropping
empty pieces. -/
def pysplit (s : Str) : List Str := pysplitGo [] s

/-! ### Vocabularies (`scrape_otto.py` lines 100–208) -/

def VARIANT_TOKENS : List Str :=
  ["pro", "max", "ultra", "plus", "lite", "fe", "mini", "xl"].map String.data

def ACCESSORY_KEYWORDS_NORM : List Str :=
  ["huelle", "case", "cover", "bumper", "handyhuelle",
   "schale", "schutzhuelle", "backcover", "flipcase", "bookcase",
   "klapphuelle", "klappcover", "etui", "silikonhuelle",
   "displayschutz", "folie", "schutzfolie", "schutzglas", "panzerglas",
   "panzerfolie", "displayfolie",
   "kabel", "ladekabel", "netzteil",
   "earphone", "earphones", "headphone", "headphones",
   "earbud", "earbuds", "headset",
   "halter", "halterung", "autohalterung",
   "staender", "stativ", "handyhalterung",
   "magnethalterung", "saugnapf",
   "tasche", "pouch",
   "ersatzakku", "powerbank",
   "wristband", "stylus", "eingabestift",
   "reinigung", "reinigungsset", "cleaning", "selfiestick",
   "ringhalter", "fingerhalter", "popgrip", "popsocket",
   "simkarte", "speicherkarte", "sdkarte"].map String.data

def ACCESSORY_KEYWORDS_RAW : List Str :=
  ["hülle", "huelle", "schutzhülle", "schutzhuelle", "handyhülle",
   "handyhuelle", "schutzfolie", "panzerglas", "panzerfolie",
   "screen protector", "tempered glass",
   "halter", "halterung", "kfz-halter", "kfz-halterung",
   "kfz halter", "kfz halterung", "lüfterhalter", "luefterhalter",
   "autohalterung", "handyhalterung",
   "ladegerät", "ladegeraet", "ladekabel", "netzteil",
   "kopfhörer", "kopfhoerer", "headset", "earbuds",
   "tasche", "pouch", "gürteltasche",
   "powerbank", "ersatzakku",
   "selfiestick", "selfie-stick",
   "popgrip", "popsocket",
   "silikon case", "silikon hülle", "tpu case", "tpu hülle",
   "hardcase", "hard case", "kfz", "charger", "adapter", "armband",
   "phone case", "protective case", "slim case"].map String.data

def WRONG_CATEGORY_KEYWORDS : List Str :=
  ["macbook", "notebook", "laptop", "imac", "mac mini", "mac studio",
   "mac pro", "airpods", "apple watch", "watch ultra", "homepod",
   "apple tv", "airtag", "magic keyboard", "magic mouse", "magic trackpad",
   "galaxy tab", "galaxy watch", "galaxy buds",
   "pixel watch", "pixel buds", "pixel tablet",
   "smart tv", "fernseher", "monitor", "drucker", "printer"].map String.data

def NOISE_WORDS : List Str :=
  ["gb", "tb", "speicher", "farbe", "dual", "sim", "dualsim",
   "schwarz", "weiss", "silber", "rot", "blau", "gruen",
   "white", "black", "blue", "green", "red", "silver", "gold",
   "pink", "pinkgold", "titanium", "cosmic", "orange", "navy",
   "mint", "iris", "moonstone",
   "128", "256", "512", "1000", "64", "32"].map String.data

/-- `BRAND_FAMILIES` in catalog (insertion) order: brand name paired with
its product lines.  Every entry's `category` is `"phone"` in the source, so
the category is represented by membership in this list.  The per-brand
`model_re` patterns are the dedicated matchers below. -/
def BRAND_FAMILIES : List (Str × List Str) :=
  [("apple".data, ["iphone", "ipad", "macbook", "mac"].map String.data),
   ("samsung".data, ["galaxy"].map String.data),
   ("google".data, ["pixel"].map String.data),
   ("oneplus".data, ["oneplus"].map String.data),
   ("xiaomi".data, ["xiaomi", "redmi", "poco"].map String.data),
   ("huawei".data, ["huawei", "mate"].map String.data),
   ("sony".data, ["xperia"].map String.data),
   ("motorola".data, ["moto", "motorola"].map String.data),
   ("nothing".data, ["nothing"].map String.data)]

def brandLines (b : Str) : Option (List Str) :=
  (BRAND_FAMILIES.find? (fun e => e.1 = b)).map Prod.snd

/-! ### Regex matchers for the query-parsing patterns

Each Python pattern is embedded as a matcher that tries to match at the
start of a suffix (returning the captured group), plus a left-to-right
scanner (`re.search` semantics).  `re.I` on these patterns is immaterial:
they are applied to `_normalize` output, which is lowercase. -/

/-- Consume a literal, returning the rest of the input. -/
def matchLit (lit s : Str) : Option Str :=
  if lit.isPrefixOf s then some (s.drop lit.length) else none

/-- Python's `pat in s` on strings: substring test. -/
def isSubstr (pat : Str) : Str → Bool
  | [] => pat.isPrefixOf ([] : Str)
  | c :: r => pat.isPrefixOf (c :: r) || isSubstr pat r

/-- Greedy `\s*` (always succeeds; deterministic because in every pattern
used the next item cannot match whitespace). -/
def skipWS (s : Str) : Str := s.dropWhile isWS

/-- Greedy `\s+` (same determinism remark). -/
def matchWS1 : Str → Option Str
  | [] => none
  | c :: r => if isWS c then some (r.dropWhile isWS) else none

/-- Greedy `(\d{1,2})` with no trailing boundary: one or two digits. -/
def grabDigits12 : Str → Option Str
  | [] => none
  | [c1] => if isDig c1 then some [c1] else none
  | c1 :: c2 :: _ =>
    if isDig c1 then (if isDig c2 then some [c1, c2] else some [c1]) else none

/-- Greedy `(\w+)`: a nonempty run of word characters. -/
def grabWord (s : Str) : Option Str :=
  let w := s.takeWhile isWordChar
  if w = [] then none else some w

/-- Greedy `(\d+)`: a nonempty run of digits. -/
def grabDigits (s : Str) : Option Str :=
  let w := s.takeWhile isDig
  if w = [] then none else some w

/-- `lit\s*(\d{1,2})` at the start of `s`. -/
def litThenDigits (lit s : Str) : Option Str :=
  (matchLit lit s).bind fun r => grabDigits12 (skipWS r)

/-- `lit\s*(\w+)` at the start of `s`. -/
def litThenWord (lit s : Str) : Option Str :=
  (matchLit lit s).bind fun r => grabWord (skipWS r)

/-- Generic left-to-right scanner: `re.search` for a matcher that does not
look at the character before the match. -/
def search1 (m : Str → Option α) : Str → Option α
  | [] => m []
  | c :: r =>
    match m (c :: r) with
    | some v => some v
    | none => search1 m r

/-- Generic left-to-right scanner for a matcher that also inspects the
character preceding the match position (for a leading `\b`). -/
def searchPrev (m : Option Char → Str → Option α) : Option Char → Str → Option α
  | prev, [] => m prev []
  | prev, c :: r =>
    match m prev (c :: r) with
    | some v => some v
    | none => searchPrev m (some c) r

/-- `(?:iphone|ipad)\s*(\d{1,2})` at the start of `s` (apple `model_re`);
alternation tried left to right, each branch with its own continuation. -/
def appleModelAt (s : Str) : Option Str :=
  match litThenDigits "iphone".data s with
  | some v => some v
  | none => litThenDigits "ipad".data s

/-- `(?:flip|fold|s|a|m|note)\s*(\d{1,2})` at the start of `s`. -/
def samsungFamDigits (s : Str) : Option Str :=
  match litThenDigits "flip".data s with
  | some v => some v
  | none => match litThenDigits "fold".data s with
    | some v => some v
    | none => match litThenDigits "s".data s with
      | some v => some v
      | none => match litThenDigits "a".data s with
        | some v => some v
        | none => match litThenDigits "m".data s with
          | some v => some v
          | none => litThenDigits "note".data s

/-- `galaxy\s*(?:z\s*)?(?:flip|fold|s|a|m|note)\s*(\d{1,2})` at the start
of `s` (samsung `model_re`); the optional `z\s*` is greedy, with
backtracking to the without-`z` branch. -/
def samsungModelAt (s : Str) : Option Str :=
  (matchLit "galaxy".data s).bind fun r =>
    let r1 := skipWS r
    match (matchLit "z".data r1).bind fun rz => samsungFamDigits (skipWS rz) with
    | some v => some v
    | none => samsungFamDigits r1

/-- `(?:xiaomi|redmi|poco)\s*(?:note\s*)?(\d{1,2})` at the start of `s`. -/
def xiaomiModelAt (s : Str) : Option Str :=
  let tail (r : Str) : Option Str :=
    let r1 := skipWS r
    match (matchLit "note".data r1).bind fun rn => grabDigits12 (skipWS rn) with
    | some v => some v
    | none => grabDigits12 r1
  match (matchLit "xiaomi".data s).bind tail with
  | some v => some v
  | none => match (matchLit "redmi".data s).bind tail with
    | some v => some v
    | none => (matchLit "poco".data s).bind tail

/-- `(?:huawei|mate|p)\s*(\d{1,2})` at the start of `s`. -/
def huaweiModelAt (s : Str) : Option Str :=
  match litThenDigits "huawei".data s with
  | some v => some v
  | none => match litThenDigits "mate".data s with
    | some v => some v
    | none => litThenDigits "p".data s

/-- `moto(?:rola)?\s*(\w+)` at the start of `s` (greedy optional `rola`). -/
def motorolaModelAt (s : Str) : Option Str :=
  match litThenWord "motorola".data s with
  | some v => some v
  | none => litThenWord "moto".data s

/-- `nothing\s*phone\s*\(?(\d+)\)?` at the start of `s`. -/
def nothingModelAt (s : Str) : Option Str :=
  (matchLit "nothing".data s).bind fun r =>
    (matchLit "phone".data (skipWS r)).bind fun r2 =>
      let r3 := skipWS r2
      let r4 := if r3.head? = some '(' then r3.tail else r3
      grabDigits r4

/-- Dispatch of the per-brand `model_re` search over the query. -/
def brandModelSearch (b qn : Str) : Option Str :=
  if b = "apple".data then search1 appleModelAt qn
  else if b = "samsung".data then search1 samsungModelAt qn
  else if b = "google".data then search1 (litThenDigits "pixel".data) qn
  else if b = "oneplus".data then search1 (litThenDigits "oneplus".data) qn
  else if b = "xiaomi".data then search1 xiaomiModelAt qn
  else if b = "huawei".data then search1 huaweiModelAt qn
  else if b = "sony".data then search1 (litThenWord "xperia".data) qn
  else if b = "motorola".data then search1 motorolaModelAt qn
  else if b = "nothing".data then search1 nothingModelAt qn
  else none

/-- `\b(\d{1,2})\b` at a position whose preceding character is `prev`
(greedy, backtracking from two digits to one on a failed trailing `\b`). -/
def standaloneNumAt (prev : Option Char) (s : Str) : Option Str :=
  if !boundaryOk prev then none
  else
    match s with
    | [] => none
    | [c1] => if isDig c1 then some [c1] else none
    | c1 :: c2 :: r =>
      if !isDig c1 then none
      else if isDig c2 then (if boundaryOk r.head? then some [c1, c2] else none)
      else if boundaryOk (some c2) then some [c1] else none

/-! ### Query parsing (`scrape_otto.py` lines 215–293) -/

/-- `_detect_brand`: first catalog brand whose name is a substring of the
normalized query or one of whose product lines occurs as a whole word. -/
def detect_brand (qn : Str) : Option Str :=
  go BRAND_FAMILIES
where
  go : List (Str × List Str) → Option Str
  | [] => none
  | (b, pls) :: rest =>
    if isSubstr b qn then some b
    else if pls.any (fun pl => hasWW pl qn) then some b
    else go rest

/-- `_extract_product_line`: first of the detected brand's product lines
present as a whole word. -/
def extract_product_line (qn : Str) (brand : Option Str) : Str :=
  match brand with
  | none => []
  | some b =>
    match brandLines b with
    | none => []
    | some pls => ((pls.find? (fun pl => hasWW pl qn)).getD [])

/-- `(flip|fold)` then `\s*\d` (used by `_extract_samsung_sub` pattern 1
after `galaxy\s+(?:z\s+)?`): returns the captured sub-family. -/
def subFFSpaceDigit (s : Str) : Option Str :=
  let tryFam (fam : Str) : Option Str :=
    (matchLit fam s).bind fun r =>
      if (skipWS r).head?.any isDig then some fam else none
  match tryFam "flip".data with
  | some v => some v
  | none => tryFam "fold".data

/-- `(flip|fold)\d` (pattern 2: digit immediately after, no whitespace). -/
def subFFDigit (s : Str) : Option Str :=
  let tryFam (fam : Str) : Option Str :=
    (matchLit fam s).bind fun r =>
      if r.head?.any isDig then some fam else none
  match tryFam "flip".data with
  | some v => some v
  | none => tryFam "fold".data

/-- `(s|a|m|note)\s*\d` (pattern 3). -/
def subSAMN (s : Str) : Option Str :=
  let tryFam (fam : Str) : Option Str :=
    (matchLit fam s).bind fun r =>
      if (skipWS r).head?.any isDig then some fam else none
  match tryFam "s".data with
  | some v => some v
  | none => match tryFam "a".data with
    | some v => some v
    | none => match tryFam "m".data with
      | some v => some v
      | none => tryFam "note".data

/-- `galaxy\s+(?:z\s+)?` then a sub-family matcher `k` (greedy optional
`z\s+` with backtracking). -/
def galaxyThen (k : Str → Option Str) (s : Str) : Option Str :=
  (matchLit "galaxy".data s).bind fun r =>
    (matchWS1 r).bind fun r1 =>
      match (matchLit "z".data r1).bind fun rz => (matchWS1 rz).bind k with
      | some v => some v
      | none => k r1

/-- `_extract_samsung_sub`: the three patterns tried in order. -/
def extract_samsung_sub (qn : Str) : Str :=
  match search1 (galaxyThen subFFSpaceDigit) qn with
  | some v => v
  | none =>
    match search1 (galaxyThen subFFDigit) qn with
    | some v => v
    | none =>
      match search1 (galaxyThen subSAMN) qn with
      | some v => v
      | none => []

/-- `_extract_model`: the brand's dedicated pattern, then the first
standalone 1–2 digit number. -/
def extract_model (qn : Str) (brand : Option Str) : Str :=
  let viaBrand : Option Str := (brand.bind fun b => brandModelSearch b qn)
  match viaBrand with
  | some m => m
  | none => (searchPrev standaloneNumAt none qn).getD []

/-- `_extract_variants`: the variant vocabulary filtered by whole-word
presence, in vocabulary order. -/
def extract_variants (qn : Str) : List Str :=
  VARIANT_TOKENS.filter (fun t => hasWW t qn)

/-- `_tokenize`: whitespace-split tokens minus noise words. -/
def tokenize (qn : Str) : List Str :=
  (pysplit qn).filter (fun t => !(t = []) && !(NOISE_WORDS.contains t))

/-- `QueryInfo` (`scrape_otto.py` lines 215–237). -/
structure QueryInfo where
  raw : Str
  norm : Str
  brand : Option Str
  product_line : Str
  samsung_sub : Str
  model_number : Str
  variant_tokens : List Str
  search_tokens : List Str
deriving DecidableEq, Repr

/-- `QueryInfo.from_query`. -/
def QueryInfo.fromQuery (q : Str) : QueryInfo :=
  let qn := normalizeL q
  let brand := detect_brand qn
  { raw := q
    norm := qn
    brand := brand
    product_line := extract_product_line qn brand
    samsung_sub := extract_samsung_sub qn
    model_number := extract_model qn brand
    variant_tokens := extract_variants qn
    search_tokens := tokenize qn }

/-! ### Candidate scorer (`scrape_otto.py` lines 309–335 and 672–831) -/

/-- `_match_score`: number of tokens present as whole words. -/
def match_score (text : Str) (tokens : List Str) : Nat :=
  (tokens.filter (fun t => hasWW t text)).length

/-- `_is_accessory`. -/
def is_accessory (title_norm card_norm raw_lower : Str) : Bool :=
  ACCESSORY_KEYWORDS_NORM.any (fun kw => isSubstr kw title_norm || isSubstr kw card_norm)
  || ACCESSORY_KEYWORDS_RAW.any (fun kw => isSubstr kw raw_lower)

/-- `_is_wrong_category`: only applies when the query's brand is in the
catalog (every catalog entry's `category` is `"phone"`). -/
def is_wrong_category (combined raw_lower : Str) (brand : Option Str) : Bool :=
  match brand with
  | some b =>
    if !(b = []) && (BRAND_FAMILIES.find? (fun e => e.1 = b)).isSome then
      WRONG_CATEGORY_KEYWORDS.any (fun kw => isSubstr kw combined || isSubstr kw raw_lower)
    else false
  | none => false

/-- `_is_sponsored`. -/
def is_sponsored (raw_lower : Str) : Bool :=
  isSubstr "gesponsert".data raw_lower || isSubstr "anzeige".data raw_lower
  || isSubstr "sponsored".data raw_lower

/-- Python `str.replace(pat, "", 1)`: delete the first occurrence. -/
def replaceFirst (pat : Str) : Str → Str
  | [] => []
  | c :: r =>
    if pat.isPrefixOf (c :: r) then (c :: r).drop pat.length
    else c :: replaceFirst pat r

/-- `re.fullmatch(r"\d{1,2}", t)`. -/
def isNum12 (t : Str) : Bool := (t.length = 1 || t.length = 2) && t.all isDig

/-- `_model_near` (lines 785–808): the model number appears in the token
window after the sub-family anchor (3 tokens) or after a token equal to or
starting with the product line (4 tokens, or glued onto the anchor token
itself). -/
def model_near (text : Str) (qi : QueryInfo) : Bool :=
  let tokens := pysplit text
  if !(qi.samsung_sub = []) then
    tokens.enum.any fun p =>
      p.2 = qi.samsung_sub && ((tokens.drop (p.1 + 1)).take 3).contains qi.model_number
  else if !(qi.product_line = []) then
    tokens.enum.any fun p =>
      (p.2 = qi.product_line || qi.product_line.isPrefixOf p.2)
      && (((tokens.drop (p.1 + 1)).take 4).contains qi.model_number
          || stripWS (replaceFirst qi.product_line p.2) = qi.model_number)
  else false

/-- `_conflicting_model` (lines 810–822): some anchor occurrence is
followed (within 4 tokens) by at least one standalone 1–2 digit number,
none of which is the query's model number. -/
def conflicting_model (text : Str) (qi : QueryInfo) : Bool :=
  let tokens := pysplit text
  let anchor := if !(qi.samsung_sub = []) then qi.samsung_sub else qi.product_line
  if anchor = [] then false
  else
    tokens.enum.any fun p =>
      (p.2 = anchor || anchor.isPrefixOf p.2)
      && (let nums := ((tokens.drop (p.1 + 1)).take 4).filter isNum12
          !(nums = []) && nums.all (fun n => !(n = qi.model_number)))

/-- `galaxy\s+z\s+{sub}\b` at the start of `s`. -/
def gzSubAt (sub : Str) (s : Str) : Option Unit :=
  (matchLit "galaxy".data s).bind fun r =>
    (matchWS1 r).bind fun r1 =>
      (matchLit "z".data r1).bind fun r2 =>
        (matchWS1 r2).bind fun r3 =>
          (matchLit sub r3).bind fun r4 =>
            if boundaryOk r4.head? then some () else none

/-- `galaxy\s+{sub}\s*\d` at the start of `s`. -/
def gSubDigAt (sub : Str) (s : Str) : Option Unit :=
  (matchLit "galaxy".data s).bind fun r =>
    (matchWS1 r).bind fun r1 =>
      (matchLit sub r1).bind fun r2 =>
        if (skipWS r2).head?.any isDig then some () else none

/-- `_has_sub_family` (lines 824–831). -/
def has_sub_family (text sub : Str) : Bool :=
  if sub = "flip".data || sub = "fold".data then (search1 (gzSubAt sub) text).isSome
  else (search1 (gSubDigAt sub) text).isSome

def categoryWords : List Str := ["smartphone", "handy", "mobiltelefon"].map String.data

/-- The model-proximity score component of `_evaluate_card`
(lines 722–729, reached only when a model number is requested and no
conflict was found): `+15` near the anchor, else `+5` as a whole word
anywhere, else `-10`. -/
def modelScore (combined : Str) (qi : QueryInfo) : Int :=
  if model_near combined qi then 15
  else if hasWW qi.model_number combined then 5
  else -10

/-- The variant-reconciliation component (lines 738–752); `expected` is a
Python `set`, modelled by deduplication (order is irrelevant to the sum). -/
def variantScore (combined : Str) (qi : QueryInfo) : Int :=
  let present := VARIANT_TOKENS.filter (fun vt => hasWW vt combined)
  let expected := qi.variant_tokens.dedup
  ((expected.filter (fun vt => present.contains vt)).length : Int) * 8
    - ((expected.filter (fun vt => !present.contains vt)).length : Int) * 10
    - ((present.filter (fun vt => !expected.contains vt)).length : Int) * 8

/-- `combined = f"{title_norm} {card_norm}"` (line 683). -/
def combineParts (title_norm card_norm : Str) : Str :=
  title_norm ++ ' ' :: card_norm

def mkCombined (title raw_text : Str) : Str :=
  combineParts (if title = [] then [] else normalizeL title) (normalizeL raw_text)

/-- The token-overlap score component (lines 701–703). -/
def tokenComponent (qi : QueryInfo) (combined : Str) : Int :=
  (match_score combined qi.search_tokens : Int) * 2

/-- The brand score component (lines 706–707). -/
def brandComponent (qi : QueryInfo) (combined : Str) : Int :=
  match qi.brand with
  | some b => if !(b = []) && isSubstr b combined then 3 else 0
  | none => 0

/-- The product-line score component (lines 710–711). -/
def lineComponent (qi : QueryInfo) (combined : Str) : Int :=
  if !(qi.product_line = []) && isSubstr qi.product_line combined then 3 else 0

/-- The model-proximity score component including its guard (lines 714–727). -/
def mComponent (qi : QueryInfo) (combined : Str) : Int :=
  if qi.model_number = [] then 0 else modelScore combined qi

/-- The Samsung sub-family score component (lines 730–734). -/
def subComponent (qi : QueryInfo) (combined : Str) : Int :=
  if qi.samsung_sub = [] then 0
  else if has_sub_family combined qi.samsung_sub then 10 else -15

/-- The category-marker bonus (lines 755–757). -/
def catComponent (combined : Str) : Int :=
  if categoryWords.any (fun w => isSubstr w combined) then 5 else 0

/-- The full additive score of `_evaluate_card` (lines 699–757). -/
def cardScore (qi : QueryInfo) (combined : Str) : Int :=
  tokenComponent qi combined + brandComponent qi combined + lineComponent qi combined
    + mComponent qi combined + subComponent qi combined + variantScore combined qi
    + catComponent combined

/-- `_evaluate_card` (lines 672–779) on its three derived texts
(`title_norm`, `card_norm`, `raw_lower`, lines 679–683): the hard filters,
the additive score and the `model_ok` flag.  `hasLink` abstracts the check
that the card contains a product link (lines 763–768); the browser-error
path (`except`) is outside the model. -/
def evaluateParts (qi : QueryInfo) (title_norm card_norm raw_lower : Str)
    (hasLink : Bool) : Option (Int × Bool) :=
  let combined := combineParts title_norm card_norm
  if is_sponsored raw_lower then none
  else if is_accessory title_norm card_norm raw_lower then none
  else if is_wrong_category combined raw_lower qi.brand then none
  else if !(qi.product_line = []) && !(isSubstr qi.product_line combined) then none
  else if !(qi.model_number = []) && conflicting_model combined qi then none
  else
    let score := cardScore qi combined
    if score ≤ 0 then none
    else if !hasLink then none
    else
      let model_ok :=
        if qi.model_number = [] then true
        else (model_near combined qi || hasWW qi.model_number combined)
          && !(conflicting_model combined qi)
      some (score, model_ok)

/-- `_evaluate_card` on the card's raw inputs: `title` and `raw_text` are
the card's two text inputs, from which the three derived texts are
computed exactly as in lines 679–683. -/
def evaluate_card (qi : QueryInfo) (title raw_text : Str) (hasLink : Bool) :
    Option (Int × Bool) :=
  evaluateParts qi (if title = [] then [] else normalizeL title) (normalizeL raw_text)
    (raw_text.map lowerChar) hasLink

/-! ### Claims C1 and C2: the model-conflict hard reject and the
model-proximity score -/

/-- The window condition exactly as claim C1 words it: a different
standalone 1–2 digit number appears in the 4-token window following an
anchor token (regardless of whether the correct model number also appears
there). -/
def ClaimC1Conflict (text : Str) (qi : QueryInfo) : Bool :=
  let tokens := pysplit text
  let anchor := if !(qi.samsung_sub = []) then qi.samsung_sub else qi.product_line
  !(anchor = []) && tokens.enum.any fun p =>
    (p.2 = anchor || anchor.isPrefixOf p.2)
    && ((tokens.drop (p.1 + 1)).take 4).any fun t => isNum12 t && !(t = qi.model_number)

/-- The proximity condition of `_model_near`, spelled as an existential:
the model number lies in the 3-token window after a token equal to the
sub-family anchor, or — when there is no sub-family — in the 4-token
window after a token equal to or starting with the product line (or glued
directly onto it). -/
def NearSpec (text : Str) (qi : QueryInfo) : Prop :=
  let tokens := pysplit text
  if qi.samsung_sub ≠ [] then
    ∃ i tok, tokens[i]? = some tok ∧ tok = qi.samsung_sub ∧
      qi.model_number ∈ (tokens.drop (i + 1)).take 3
  else if qi.product_line ≠ [] then
    ∃ i tok, tokens[i]? = some tok ∧
      (tok = qi.product_line ∨ qi.product_line <+: tok) ∧
      (qi.model_number ∈ (tokens.drop (i + 1)).take 4 ∨
        stripWS (replaceFirst qi.product_line tok) = qi.model_number)
  else False

theorem model_near_iff (text : Str) (qi : QueryInfo) :
    model_near text qi = true ↔ NearSpec text qi := by
  unfold model_near NearSpec
  by_cases hs : qi.samsung_sub = []
  · simp only [hs, decide_True, Bool.not_true, Bool.false_eq_true, if_false, ne_eq,
      not_true_eq_false]
    by_cases hp : qi.product_line = []
    · simp [hp]
    · simp only [hp, decide_False, Bool.not_false, if_true, ne_eq, not_false_eq_true]
      rw [List.any_eq_true]
      constructor
      · rintro ⟨⟨i, tok⟩, hmem, hf⟩
        rw [List.mem_enum_iff_getElem?] at hmem
        simp only [Bool.and_eq_true, Bool.or_eq_true, decide_eq_true_eq,
          List.isPrefixOf_iff_prefix, List.elem_iff] at hf
        exact ⟨i, tok, hmem, hf.1, hf.2⟩
      · rintro ⟨i, tok, hget, h1, h2⟩
        refine ⟨(i, tok), List.mem_enum_iff_getElem?.mpr hget, ?_⟩
        simp only [Bool.and_eq_true, Bool.or_eq_true, decide_eq_true_eq,
          List.isPrefixOf_iff_prefix, List.elem_iff]
        exact ⟨h1, h2⟩
  · simp only [hs, ne_eq, not_false_eq_true, decide_False, Bool.not_false, if_true]
    rw [List.any_eq_true]
    constructor
    · rintro ⟨⟨i, tok⟩, hmem, hf⟩
      rw [List.mem_enum_iff_getElem?] at hmem
      simp only [Bool.and_eq_true, decide_eq_true_eq, List.elem_iff] at hf
      exact ⟨i, tok, hmem, hf.1, hf.2⟩
    · rintro ⟨i, tok, hget, h1, h2⟩
      refine ⟨(i, tok), List.mem_enum_iff_getElem?.mpr hget, ?_⟩
      simp only [Bool.and_eq_true, decide_eq_true_eq, List.elem_iff]
      exact ⟨h1, h2⟩

/-- C1 counterexample: for the query `"iphone 17"` (model number `"17"`,
product line `"iphone"`) and the candidate text
`"Apple iPhone 16 17 Smartphone"`, a different 1–2 digit number (`16`)
appears in the token window immediately following the anchor token — and
the candidate text contains `"iphone 16"` — yet the scorer does **not**
hard-reject the candidate: it returns score 30 with `model_ok = true`,
because the window also contains the correct number `17`. -/
theorem C1_counterexample :
    (QueryInfo.fromQuery "iphone 17".data).model_number = "17".data ∧
    ClaimC1Conflict (mkCombined [] "Apple iPhone 16 17 Smartphone".data)
      (QueryInfo.fromQuery "iphone 17".data) = true ∧
    isSubstr "iphone 16".data (mkCombined [] "Apple iPhone 16 17 Smartphone".data) = true ∧
    evaluate_card (QueryInfo.fromQuery "iphone 17".data) []
      "Apple iPhone 16 17 Smartphone".data true = some (30, true) :=
  ⟨by decide, by decide, by decide, by decide⟩

/-- C1 (amended): the Candidate Scorer hard-rejects (returns no score)
whenever the parsed query has a non-empty model number and
`_conflicting_model` holds on the combined text: some token window of 4
tokens following an anchor-prefixed token contains at least one standalone
1–2 digit number and none of them equals the model number.  (In
particular, a candidate containing "iphone 16" is rejected for an
"iphone 17" query provided "17" does not also occur in that window.) -/
theorem C1_conflicting_model_rejects (qi : QueryInfo) (title raw_text : Str)
    (hasLink : Bool) (hm : qi.model_number ≠ [])
    (hc : conflicting_model (mkCombined title raw_text) qi = true) :
    evaluate_card qi title raw_text hasLink = none := by
  have hg : (!(decide (qi.model_number = []))
      && conflicting_model (mkCombined title raw_text) qi) = true := by
    simp [hm, hc]
  simp only [mkCombined] at hg
  simp only [evaluate_card, evaluateParts, hg, if_true, ite_self]

/-- Witness for C1: the query "iphone 17" against a card whose only nearby
number is 16 is rejected. -/
theorem C1_witness :
    evaluate_card (QueryInfo.fromQuery "iphone 17".data) []
      "Apple iPhone 16 Smartphone".data true = none :=
  C1_conflicting_model_rejects _ _ _ _ (by decide) (by decide)

/-- C2 counterexample: for the query `"samsung galaxy z flip 7"` (sub-family
anchor `"flip"`, model `"7"`) and a candidate whose model number sits 4
tokens after the anchor, the model number **is** within a 4-token window
immediately after the anchor, the candidate is not hard-rejected
(`evaluate_card` returns a score), yet the scorer adds only `+5`, not
`+15`: for the sub-family anchor the code's window is 3 tokens, not 4. -/
theorem C2_counterexample :
    (QueryInfo.fromQuery "samsung galaxy z flip 7".data).samsung_sub = "flip".data ∧
    (QueryInfo.fromQuery "samsung galaxy z flip 7".data).model_number = "7".data ∧
    (∃ i tok,
      (pysplit (mkCombined [] "samsung galaxy z flip mit great deal 7 smartphone".data))[i]?
          = some tok ∧
      tok = "flip".data ∧
      "7".data ∈ ((pysplit (mkCombined []
          "samsung galaxy z flip mit great deal 7 smartphone".data)).drop (i + 1)).take 4) ∧
    modelScore (mkCombined [] "samsung galaxy z flip mit great deal 7 smartphone".data)
      (QueryInfo.fromQuery "samsung galaxy z flip 7".data) = 5 ∧
    evaluate_card (QueryInfo.fromQuery "samsung galaxy z flip 7".data) []
      "samsung galaxy z flip mit great deal 7 smartphone".data true = some (36, true) :=
  ⟨by decide, by decide, ⟨3, "flip".data, by decide, by decide, by decide⟩,
    by decide, by decide⟩

/-- C2 (amended): the model-proximity component of the score is `+15`
exactly when the model number appears in the token window immediately
after the anchor — a window of **3** tokens after a token equal to the
sub-family anchor, or of 4 tokens after a token equal to or starting with
the product-line anchor (or glued onto it) — otherwise `+5` when the model
number appears anywhere as a whole word, otherwise `-10`. -/
theorem C2_model_proximity_score (text : Str) (qi : QueryInfo) :
    (model_near text qi = true ↔ NearSpec text qi) ∧
    (NearSpec text qi → modelScore text qi = 15) ∧
    (¬ NearSpec text qi → hasWW qi.model_number text = true → modelScore text qi = 5) ∧
    (¬ NearSpec text qi → hasWW qi.model_number text = false → modelScore text qi = -10) := by
  refine ⟨model_near_iff text qi, ?_, ?_, ?_⟩
  · intro h
    rw [← model_near_iff] at h
    simp [modelScore, h]
  · intro h hw
    rw [← model_near_iff] at h
    simp only [Bool.not_eq_true] at h
    simp [modelScore, h, hw]
  · intro h hw
    rw [← model_near_iff] at h
    simp only [Bool.not_eq_true] at h
    simp [modelScore, h, hw]

/-- Witness for C2: a concrete near-anchor candidate receives `+15`. -/
theorem C2_witness :
    modelScore (mkCombined [] "Apple iPhone 17 Smartphone".data)
      (QueryInfo.fromQuery "iphone 17".data) = 15 :=
  (C2_model_proximity_score _ _).2.1
    ((C2_model_proximity_score _ _).1.mp (by decide))

/-! ### Multi-pass matcher (`_find_with_passes`, lines 613–670) -/

/-- A scored candidate as accumulated by `_find_with_passes`: the tuple
`(score, idx, link, model_ok)` with the opaque link handle as a number. -/
structure Cand where
  score : Int
  pos : Nat
  link : Nat
  model_ok : Bool
deriving DecidableEq, Repr

/-- The selection tier a match was found in. -/
inductive Tier where
  | strict | relaxed | brandOnly
deriving DecidableEq, Repr

/-- Overall outcome of the multi-pass matcher. -/
inductive MatchResult where
  | matched (tier : Tier) (c : Cand)
  | failed
deriving DecidableEq, Repr

/-- `sort(key=lambda x: (-x[0], x[1]))` followed by taking the first
element: the earliest-accumulated candidate with maximal score and, among
those, minimal position (Python's sort is stable). -/
def pickBest (pool : List Cand) : Option Cand :=
  pool.foldl (fun acc c =>
    match acc with
    | none => some c
    | some b => if c.score > b.score ∨ (c.score = b.score ∧ c.pos < b.pos) then some c else b)
    none

/-- The strict-tier filter applied after each collection round:
score ≥ 30 and `model_ok`. -/
def strictCheck (pool : List Cand) : Option Cand :=
  pickBest (pool.filter (fun c => 30 ≤ c.score && c.model_ok))

/-- The collection loop: each round appends that round's scored candidates
to the pool (candidates are never removed) and then looks for a strict
match.  A round with no cards leaves the pool unchanged; running the
strict check there anyway is observably identical (the pool did not
change), so rounds are uniform here. -/
def collectRounds : List Cand → List (List Cand) → List Cand × Option Cand
  | pool, [] => (pool, none)
  | pool, r :: rs =>
    let pool' := pool ++ r
    match strictCheck pool' with
    | some c => (pool', some c)
    | none => collectRounds pool' rs

/-- `_find_with_passes` over the per-round candidate lists supplied by the
external Listing Provider (the browser): at most 10 rounds, strict
threshold 30 checked after each round, then relaxed (≥ 15) and brand-only
(≥ 5) over the full pool; every tier requires `model_ok`. -/
def findWithPasses (rounds : List (List Cand)) : MatchResult :=
  match collectRounds [] (rounds.take 10) with
  | (_, some c) => .matched .strict c
  | (pool, none) =>
    match pickBest (pool.filter (fun c => 15 ≤ c.score && c.model_ok)) with
    | some c => .matched .relaxed c
    | none =>
      match pickBest (pool.filter (fun c => 5 ≤ c.score && c.model_ok)) with
      | some c => .matched .brandOnly c
      | none => .failed

theorem collectRounds_no_strict (rs : List (List Cand)) :
    ∀ pool : List Cand, (∀ c ∈ pool ++ rs.flatten, c.score < 30) →
    collectRounds pool rs = (pool ++ rs.flatten, none) := by
  induction rs with
  | nil => intro pool _; simp [collectRounds]
  | cons r rs ih =>
    intro pool h
    simp only [collectRounds]
    have hstrict : strictCheck (pool ++ r) = none := by
      unfold strictCheck
      have hf : (pool ++ r).filter (fun c => 30 ≤ c.score && c.model_ok) = [] := by
        apply List.filter_eq_nil_iff.mpr
        intro c hc
        have hcs : c.score < 30 := by
          apply h c
          rcases List.mem_append.1 hc with h' | h'
          · exact List.mem_append.2 (Or.inl h')
          · exact List.mem_append.2 (Or.inr (List.mem_append.2 (Or.inl (by simpa using h'))))
        simp only [Bool.and_eq_true, decide_eq_true_eq, not_and]
        intro hle
        omega
      rw [hf]
      rfl
    rw [hstrict]
    rw [ih (pool ++ r) (by
      intro c hc
      apply h c
      simp only [List.flatten_cons, List.append_assoc] at *
      exact hc)]
    simp [List.append_assoc]

/-- C3 counterexample: a pool whose only accumulated candidates score 10
and 8 (both with `model_ok = false`, as happens when the requested model
number is absent from the card text) makes the matcher terminate in
`FAILED`: the brand-only tier also requires `model_ok`, so neither
candidate is eligible. -/
theorem C3_counterexample :
    (Cand.mk 10 0 0 false).score = 10 ∧ (Cand.mk 8 1 1 false).score = 8 ∧
    findWithPasses [[Cand.mk 10 0 0 false, Cand.mk 8 1 1 false]] = .failed :=
  ⟨rfl, rfl, by decide⟩

/-- C3 (amended): when the only accumulated candidates score 10 and 8 —
below the strict (30) and relaxed (15) thresholds, at or above the
brand-only threshold (5) — **and both have `model_ok = true`**, the
matcher selects the score-10 candidate via the brand-only tier rather
than failing. -/
theorem C3_brand_only_tier (rounds : List (List Cand)) (c1 c2 : Cand)
    (hpool : (rounds.take 10).flatten = [c1, c2] ∨ (rounds.take 10).flatten = [c2, c1])
    (hs1 : c1.score = 10) (hs2 : c2.score = 8)
    (hm1 : c1.model_ok = true) (hm2 : c2.model_ok = true) :
    findWithPasses rounds = .matched .brandOnly c1 := by
  have hall : ∀ c ∈ ([] : List Cand) ++ (rounds.take 10).flatten, c.score < 30 := by
    intro c hc
    rcases hpool with hp | hp <;>
      · rw [List.nil_append, hp] at hc
        rcases List.mem_cons.1 hc with h | h
        · subst h; omega
        · rcases List.mem_cons.1 h with h' | h'
          · subst h'; omega
          · simp at h'
  unfold findWithPasses
  rw [collectRounds_no_strict _ _ hall, List.nil_append]
  rcases hpool with hp | hp <;> rw [hp] <;> dsimp only
  · have hrel : List.filter (fun c => 15 ≤ c.score && c.model_ok) [c1, c2] = [] := by
      apply List.filter_eq_nil_iff.mpr
      intro c hc
      simp only [Bool.and_eq_true, decide_eq_true_eq, not_and]
      intro hle
      rcases List.mem_cons.1 hc with h | h
      · subst h; omega
      · rcases List.mem_cons.1 h with h' | h'
        · subst h'; omega
        · simp at h'
    have hbr : List.filter (fun c => 5 ≤ c.score && c.model_ok) [c1, c2] = [c1, c2] := by
      apply List.filter_eq_self.mpr
      intro c hc
      rcases List.mem_cons.1 hc with h | h
      · subst h; simp [hs1, hm1]
      · rcases List.mem_cons.1 h with h' | h'
        · subst h'; simp [hs2, hm2]
        · simp at h'
    rw [hrel, hbr]
    simp only [pickBest, List.foldl]
    rw [if_neg (by rw [hs1, hs2]; push_neg; constructor <;> omega)]
  · have hrel : List.filter (fun c => 15 ≤ c.score && c.model_ok) [c2, c1] = [] := by
      apply List.filter_eq_nil_iff.mpr
      intro c hc
      simp only [Bool.and_eq_true, decide_eq_true_eq, not_and]
      intro hle
      rcases List.mem_cons.1 hc with h | h
      · subst h; omega
      · rcases List.mem_cons.1 h with h' | h'
        · subst h'; omega
        · simp at h'
    have hbr : List.filter (fun c => 5 ≤ c.score && c.model_ok) [c2, c1] = [c2, c1] := by
      apply List.filter_eq_self.mpr
      intro c hc
      rcases List.mem_cons.1 hc with h | h
      · subst h; simp [hs2, hm2]
      · rcases List.mem_cons.1 h with h' | h'
        · subst h'; simp [hs1, hm1]
        · simp at h'
    rw [hrel, hbr]
    simp only [pickBest, List.foldl]
    rw [if_pos (by rw [hs1, hs2]; left; omega)]

/-- Witness for C3: concrete two-round pool of scores 10 then 8, both
`model_ok`, matched brand-only on the score-10 candidate. -/
theorem C3_witness :
    findWithPasses [[Cand.mk 10 0 0 true], [Cand.mk 8 1 1 true]]
      = .matched .brandOnly (Cand.mk 10 0 0 true) :=
  C3_brand_only_tier _ (Cand.mk 10 0 0 true) (Cand.mk 8 1 1 true)
    (Or.inl (by decide)) rfl rfl rfl rfl

/-! ### Document field extractor (`PDFExtractor`, lines 1490–1838)

The extractor is modelled from the page-text level down: `_fetch` and the
PDF/OCR byte handling are external I/O (spec §6 Text Source / OCR Source);
their outputs are the `pages` and `ocrPages` inputs here. -/

/-- Line-break characters recognised by `str.splitlines` (on the modelled
alphabet). -/
def isLB (c : Char) : Bool := cn c = 10 || cn c = 13 || cn c = 11 || cn c = 12

/-- Python `str.splitlines`: `\r\n` counts as one break; no trailing empty
line after a final terminator. -/
def splitlinesGo (cur : Str) : Str → List Str
  | [] => if cur = [] then [] else [cur.reverse]
  | c :: r =>
    if cn c = 13 then
      cur.reverse ::
        (match r with
         | d :: r2 => if cn d = 10 then splitlinesGo [] r2 else splitlinesGo [] (d :: r2)
         | [] => [])
    else if isLB c then cur.reverse :: splitlinesGo [] r
    else splitlinesGo (c :: cur) r

def splitlines (s : Str) : List Str := splitlinesGo [] s

/-- The pervasive idiom `[l.strip() for l in text.splitlines() if l.strip()]`. -/
def stripLines (text : Str) : List Str :=
  ((splitlines text).map stripWS).filter (fun l => !(l = []))

def lowerL (s : Str) : Str := s.map lowerChar

/-- Case-insensitive literal match (for patterns compiled with `re.I`). -/
def matchLitCI (lit s : Str) : Option Str :=
  if lowerL (s.take lit.length) = lowerL lit then some (s.drop lit.length) else none

/-- Case-insensitive substring test (`ll in line` on lowercased strings is
done by the callers; this is for labels matched against original text). -/
def isSubstrCI (pat s : Str) : Bool := isSubstr (lowerL pat) (lowerL s)

def joinSpace (ls : List Str) : Str := (ls.intersperse " ".data).flatten

/-- `[a-z]` under `re.I`. -/
def isAzCI (c : Char) : Bool := (97 ≤ cn c && cn c ≤ 122) || (65 ≤ cn c && cn c ≤ 90)

/-- Greedy `(?:\([a-z]\)\s*)*` (each iteration is an annotation marker
followed by whitespace); fuel-driven so it stays kernel-computable. -/
def skipAnnotsF : Nat → Str → Str
  | 0, s => s
  | fuel + 1, s =>
    match s with
    | '(' :: c :: ')' :: r => if isAzCI c then skipAnnotsF fuel (skipWS r) else s
    | _ => s

def skipAnnots (s : Str) : Str := skipAnnotsF s.length s

/-- `re.fullmatch(r"(\([a-z]\)\s*)+", s, re.I)` as a truth value. -/
def annotsFullF : Nat → Str → Bool
  | 0, _ => false
  | fuel + 1, t =>
    match t with
    | '(' :: c :: ')' :: r =>
      if isAzCI c then (let r2 := skipWS r; (r2 = []) || annotsFullF fuel r2) else false
    | _ => false

def annotFullRe (t : Str) : Bool := annotsFullF (t.length + 1) t

/-- `PDFExtractor._annot`: empty/short line or a pure annotation line. -/
def annot (t : Str) : Bool :=
  let s := stripWS t
  (s = []) || s.length ≤ 2 || annotFullRe s

def headingMarkers : List Str :=
  ["product information sheet", "produktdatenblatt", "additional information",
   "repairability", "angaben zur reparierbarkeit"].map String.data

/-- `PDFExtractor._heading`. -/
def heading (t : Str) : Bool := headingMarkers.any (fun h => isSubstr h (lowerL t))

/-- `re.match(r"^\d+\.", line)`. -/
def numDotStart (l : Str) : Bool :=
  let d := l.takeWhile isDig
  !(d = []) && (l.drop d.length).head? = some '.'

/-- `re.match(r"^\([a-z]\)\s*$", line, re.I)`. -/
def parenLineFull (l : Str) : Bool :=
  match l with
  | '(' :: c :: ')' :: r => isAzCI c && r.all isWS
  | _ => false

/-- `re.match(r"^\([a-z]\)\s", line)` (lowercase only, no `re.I`). -/
def parenAzSpace (l : Str) : Bool :=
  match l with
  | '(' :: c :: ')' :: d :: _ => (97 ≤ cn c && cn c ≤ 122) && isWS d
  | _ => false

/-! The shared labeled-value primitive `_labeled` (lines 1722–1746). -/

/-- `\s*[:\-]?\s*`. -/
def skipSep (s : Str) : Str :=
  let r := skipWS s
  let r2 := if r.head? = some ':' || r.head? = some '-' then r.tail else r
  skipWS r2

/-- Group 1 of `re.search(rf"{label}\s*[:\-]?\s*(.+)", line, re.I)`, when it
strips to something non-empty (a match whose group is pure trailing
whitespace strips to empty and sends `_labeled` to its next-line branch,
exactly like a failed match, so both are `none` here). -/
def labelValAt (lb line : Str) : Option Str :=
  search1 (fun s =>
    (matchLitCI lb s).bind fun r =>
      let rest := skipSep r
      if rest = [] then none else some rest) line

/-- One label's scan over the stripped lines: Python returns from inside
the loop (possibly with `""` after a failed value-pattern search), and
keeps scanning on a label hit on the last line with no same-line value. -/
def labeledInner (vre : Option (Str → Option Str)) (lb : Str) : List Str → Option Str
  | [] => none
  | line :: rest =>
    if isSubstr (lowerL lb) (lowerL line) then
      match labelValAt lb line with
      | some c =>
        let c := stripWS c
        some (match vre with
          | none => c
          | some f => (f c).getD [])
      | none =>
        match rest with
        | next :: _ =>
          some (match vre with
            | none => stripWS next
            | some f => (f (stripWS next)).getD [])
        | [] => labeledInner vre lb rest
    else labeledInner vre lb rest

/-- `PDFExtractor._labeled`. -/
def labeled (text : Str) (labels : List Str) (vre : Option (Str → Option Str)) : Str :=
  if text = [] then []
  else (labels.findSome? (fun lb => labeledInner vre lb (stripLines text))).getD []

/-! Energy-class extraction `_energy` (lines 1599–1622). -/

/-- `[A-G]` under `re.I` (strategy 1's captured letter). -/
def isEnergyLetter (c : Char) : Bool := (65 ≤ cn c && cn c ≤ 71) || (97 ≤ cn c && cn c ≤ 103)

/-- `(?:Energy\s*efficiency\s*class|Energieeffizienzklasse)`. -/
def energyLabelAlt (s : Str) : Option Str :=
  match (matchLitCI "energy".data s).bind (fun r =>
      (matchLitCI "efficiency".data (skipWS r)).bind fun r2 =>
        matchLitCI "class".data (skipWS r2)) with
  | some r => some r
  | none => matchLitCI "energieeffizienzklasse".data s

/-- Greedy `(?:\s*[+]){0,3}` inside the capture group: each iteration's
whitespace is part of the captured text. -/
def grabPlus : Nat → Str → Str
  | 0, _ => []
  | n + 1, r =>
    let ws := r.takeWhile isWS
    match r.drop ws.length with
    | '+' :: r2 => ws ++ '+' :: grabPlus n r2
    | _ => []

/-- The capture `([A-G](?:\s*[+]){0,3})` (case-insensitive). -/
def grabEnergyGroup (s : Str) : Option Str :=
  match s with
  | c :: r => if isEnergyLetter c then some (c :: grabPlus 3 r) else none
  | [] => none

/-- Strategy 1 matcher at one position. -/
def energyDirectAt (s : Str) : Option Str :=
  (energyLabelAlt s).bind fun r => grabEnergyGroup (skipSep r)

/-- Strategy 1: the direct labeled-class regex, with `m.group(1).replace(" ", "")`. -/
def energyDirect (text : Str) : Option Str :=
  (search1 energyDirectAt text).map (fun g => g.filter (fun c => !(c = ' ')))

/-- The value pattern `[A-G][+]{0,3}` (no `re.I`) at one position. -/
def energyVreAt (s : Str) : Option Str :=
  match s with
  | c :: r =>
    if 65 ≤ cn c && cn c ≤ 71 then some (c :: (r.takeWhile (fun d => d = '+')).take 3)
    else none
  | [] => none

/-- `re.search(r"\b([A-G])\b", s)` (no `re.I`). -/
def singleEnergyAt (prev : Option Char) (s : Str) : Option Str :=
  if boundaryOk prev then
    match s with
    | c :: r =>
      if (65 ≤ cn c && cn c ≤ 71) && boundaryOk r.head? then some [c] else none
    | [] => none
  else none

/-- Strategy 3: scan raw lines for an efficiency marker and search that
line plus the next for a bare class letter. -/
def energyLines : List Str → Option Str
  | [] => none
  | line :: rest =>
    if isSubstr "energieeffizienz".data (lowerL line)
        || isSubstr "energy efficiency".data (lowerL line) then
      let s := line ++ rest.head?.elim [] (fun next => ' ' :: next)
      match searchPrev singleEnergyAt none s with
      | some v => some v
      | none => energyLines rest
    else energyLines rest

/-- `_energy` for a single page: the three strategies in order. -/
def energyPage (text : Str) : Str :=
  match energyDirect text with
  | some v => v
  | none =>
    let v := labeled text
      ["Energy efficiency class".data, "Energieeffizienzklasse".data]
      (some (search1 energyVreAt))
    if !(v = []) then v
    else (energyLines (splitlines text)).getD []

/-- `_energy`: first page (in order) that yields a value. -/
def energyOf : List Str → Str
  | [] => []
  | text :: rest =>
    if text = [] then energyOf rest
    else
      let v := energyPage text
      if !(v = []) then v else energyOf rest

/-! Supplier extraction `_supplier` (lines 1624–1838). -/

/-- `\s+`-joined label words (`_inline_after`'s pattern head):
`w1\s+w2\s+…`, case-insensitive. -/
def matchWords : List Str → Str → Option Str
  | [], s => some s
  | w :: rest, s =>
    (matchLitCI w s).bind fun r =>
      match rest with
      | [] => some r
      | _ :: _ => (matchWS1 r).bind (matchWords rest)

/-- `_inline_after`'s matcher at one position:
`{label}\s*(?:\([a-z]\)\s*)*:?\s*(.+)` with `re.S`, so the capture runs to
the end of the whole text.  A position where everything after the optional
parts is empty is treated as no match: the only strings the regex could
still produce there by backtracking strip to `""` or fail
`_valid_supplier`, which the caller treats identically. -/
def inlineAfterAt (lbWords : List Str) (s : Str) : Option Str :=
  (matchWords lbWords s).bind fun r =>
    let r1 := skipAnnots (skipWS r)
    let r2 := if r1.head? = some ':' then r1.tail else r1
    let r3 := skipWS r2
    if r3 = [] then none else some r3

/-- `PDFExtractor._inline_after`. -/
def inline_after (text : Str) (labels : List Str) : Str :=
  (labels.findSome? (fun lb =>
    (search1 (inlineAfterAt (pysplit lb)) text).map stripWS)).getD []

/-- `supplier'?s?\s*address\s*(?:\([a-z]\)\s*)*(.+)` at one position
(`re.I`), with the optional apostrophe and `s` backtracked properly; as in
`inlineAfterAt`, an empty remainder counts as no match (the caller
discards any value starting with `(` anyway). -/
def supplierAddrAt (s : Str) : Option Str :=
  (matchLitCI "supplier".data s).bind fun r =>
    let tryTail (r2 : Str) : Option Str :=
      (matchLitCI "address".data (skipWS r2)).bind fun r3 =>
        let r4 := skipAnnots (skipWS r3)
        if r4 = [] then none else some r4
    let tryS (r1 : Str) : Option Str :=
      if (r1.head?.map lowerChar) = some 's' then
        match tryTail r1.tail with
        | some v => some v
        | none => tryTail r1
      else tryTail r1
    if r.head? = some '\'' then
      match tryS r.tail with
      | some v => some v
      | none => tryS r
    else tryS r

/-- First collection loop of `_supplier_address_table` (after a same-line
value): stop at a heading, a `(`-line or a short line. -/
def collectVal : List Str → List Str
  | [] => []
  | l :: rest =>
    if heading l then []
    else if l.head? = some '(' then []
    else if l.length < 3 then []
    else l :: collectVal rest

/-- Second collection loop of `_supplier_address_table`: stop at a heading
or `^\([a-z]\)\s`, skip annotation lines. -/
def collectTab : List Str → List Str
  | [] => []
  | l :: rest =>
    if heading l then []
    else if parenAzSpace l then []
    else if annot l then collectTab rest
    else l :: collectTab rest

def satGo : List Str → Option Str
  | [] => none
  | line :: rest =>
    if isSubstr "supplier".data (lowerL line) && isSubstr "address".data (lowerL line) then
      let attempt1 : Option Str :=
        match search1 supplierAddrAt line with
        | some g =>
          let val := stripWS g
          if !(val = []) && 5 < val.length && !(val.head? = some '(') then
            some (joinSpace (val :: collectVal (rest.take 4)))
          else none
        | none => none
      match attempt1 with
      | some v => some v
      | none =>
        let collected := collectTab (rest.take 4)
        if !(collected = []) then some (joinSpace collected) else satGo rest
    else satGo rest

/-- `PDFExtractor._supplier_address_table` (lines 1650–1684). -/
def supplier_address_table (text : Str) : Str :=
  (satGo (stripLines text)).getD []

/-- Collection loop of `_block_after` (lines 1766–1777). -/
def collectBA : List Str → List Str
  | [] => []
  | l :: rest =>
    if parenLineFull l then []
    else if numDotStart l then []
    else if l.head? = some '(' then []
    else if heading l then []
    else if annot l then collectBA rest
    else l :: collectBA rest

def blockAfterInner (ml : Nat) (lb : Str) : List Str → Option Str
  | [] => none
  | line :: rest =>
    if isSubstr (lowerL lb) (lowerL line) then
      let c := collectBA (rest.take ml)
      if !(c = []) then some (joinSpace c) else blockAfterInner ml lb rest
    else blockAfterInner ml lb rest

/-- `PDFExtractor._block_after`. -/
def block_after (text : Str) (labels : List Str) (ml : Nat) : Str :=
  (labels.findSome? (fun lb => blockAfterInner ml lb (stripLines text))).getD []

/-- Collection loop of `_block_after_phrases` (lines 1791–1800): like
`_block_after` but without the `^\([a-z]\)\s*$` stop. -/
def collectBP : List Str → List Str
  | [] => []
  | l :: rest =>
    if numDotStart l then []
    else if l.head? = some '(' then []
    else if heading l then []
    else if annot l then collectBP rest
    else l :: collectBP rest

def blockPhraseInner (ml : Nat) (ph : Str) : List Str → Option Str
  | [] => none
  | line :: rest =>
    if isSubstr (lowerL ph) (lowerL line) then
      let c := collectBP (rest.take ml)
      if !(c = []) then some (joinSpace c) else blockPhraseInner ml ph rest
    else blockPhraseInner ml ph rest

/-- `PDFExtractor._block_after_phrases`. -/
def block_after_phrases (text : Str) (phrases : List Str) (ml : Nat) : Str :=
  (phrases.findSome? (fun ph => blockPhraseInner ml ph (stripLines text))).getD []

/-- Collection loop of `_block_before` (lines 1814–1821), fed the lines
before the label nearest-first; the result is reversed back by the caller. -/
def collectBB : List Str → List Str
  | [] => []
  | l :: rest =>
    if numDotStart l then []
    else if heading l then []
    else if annot l then collectBB rest
    else l :: collectBB rest

def blockBeforeInner (ml : Nat) (lb : Str) : List Str → List Str → Option Str
  | _, [] => none
  | prev, line :: rest =>
    if isSubstr (lowerL lb) (lowerL line) then
      let c := collectBB (prev.take ml)
      if !(c = []) then some (joinSpace c.reverse)
      else blockBeforeInner ml lb (line :: prev) rest
    else blockBeforeInner ml lb (line :: prev) rest

/-- `PDFExtractor._block_before`. -/
def block_before (text : Str) (labels : List Str) (ml : Nat) : Str :=
  (labels.findSome? (fun lb => blockBeforeInner ml lb [] (stripLines text))).getD []

/-- Python `str.isalpha` on the modelled alphabet. -/
def isAlphaPy (c : Char) : Bool :=
  (97 ≤ cn c && cn c ≤ 122) || (65 ≤ cn c && cn c ≤ 90) || cn c = 228 || cn c = 246
  || cn c = 252 || cn c = 223 || cn c = 196 || cn c = 214 || cn c = 220

def boilerplateMarkers : List Str :=
  ["steuern", "weitere angaben", "self-repair", "spare-parts", "search-detail"].map
    String.data

/-- `PDFExtractor._valid_supplier` (lines 1686–1695). -/
def valid_supplier (v : Str) : Bool :=
  if (v = []) || (stripWS v).length < 5 then false
  else if boilerplateMarkers.any (fun g => isSubstr g (lowerL v)) then false
  else 5 ≤ (v.filter isAlphaPy).length

/-! `_clean_supplier` (lines 1697–1720), one regex substitution at a
time. -/

/-- `re.sub(r"^(\s*\([a-z]\)\s*)+", "", t, re.I)`: strip leading
annotation markers; no change when the first group iteration fails. -/
def cleanLeadAnnotsF : Nat → Str → Str
  | 0, s => s
  | fuel + 1, s =>
    let s1 := skipWS s
    match s1 with
    | '(' :: c :: ')' :: r => if isAzCI c then cleanLeadAnnotsF fuel (skipWS r) else s
    | _ => s

def cleanLeadAnnots (t : Str) : Str := cleanLeadAnnotsF (t.length + 1) t

/-- The label alternation of the prefix-strip
`^(?:supplier information|lieferanteninformation|anschrift des
lieferanten|supplier'?s? address)\s*` (`re.I`), anchored at the start. -/
def cleanLabelHead (t : Str) : Option Str :=
  match matchLitCI "supplier information".data t with
  | some r => some r
  | none =>
    match matchLitCI "lieferanteninformation".data t with
    | some r => some r
    | none =>
      match matchLitCI "anschrift des lieferanten".data t with
      | some r => some r
      | none =>
        (matchLitCI "supplier".data t).bind fun r =>
          let tryTail (r2 : Str) : Option Str := matchLitCI " address".data r2
          let tryS (r1 : Str) : Option Str :=
            if (r1.head?.map lowerChar) = some 's' then
              match tryTail r1.tail with
              | some v => some v
              | none => tryTail r1
            else tryTail r1
          if r.head? = some '\'' then
            match tryS r.tail with
            | some v => some v
            | none => tryS r
          else tryS r

def cleanLabelPrefix (t : Str) : Str :=
  match cleanLabelHead t with
  | some r => skipWS r
  | none => t

/-- `$` of a non-MULTILINE pattern: holds at the end of the string or just
before a final newline. -/
def dollarOk (afterLine : Str) : Bool := afterLine = [] || afterLine = ['\n']

/-- `re.sub(pat ++ ".*$", "", t)` for a head matcher `m` (with `\b`
handling through `prev`): removes from the first position where the head
matches and the rest of that line runs to the end of the string (up to a
final newline, which `$` leaves in place).  `re.sub` would go on scanning
the remaining `""`/`"\n"`, where nothing can match. -/
def subTailAll (m : Option Char → Str → Option Str) (t : Str) : Str :=
  go none [] t
where
  go (prev : Option Char) (acc : Str) : Str → Str
  | [] => acc.reverse
  | c :: r =>
    match m prev (c :: r) with
    | some rest =>
      let line := rest.takeWhile (fun d => !(d = '\n'))
      let after := rest.drop line.length
      if dollarOk after then acc.reverse ++ after
      else go (some c) (c :: acc) r
    | none => go (some c) (c :: acc) r

/-- Head of `\bsupplier\s*'?s?\s*address` (`re.I`). -/
def supplierAddrCleanHead (prev : Option Char) (s : Str) : Option Str :=
  if boundaryOk prev then
    (matchLitCI "supplier".data s).bind fun r0 =>
      let r := skipWS r0
      let tryTail (r2 : Str) : Option Str := matchLitCI "address".data (skipWS r2)
      let tryS (r1 : Str) : Option Str :=
        if (r1.head?.map lowerChar) = some 's' then
          match tryTail r1.tail with
          | some v => some v
          | none => tryTail r1
        else tryTail r1
      if r.head? = some '\'' then
        match tryS r.tail with
        | some v => some v
        | none => tryS r
      else tryS r
  else none

/-- Head of `\banschrift des lieferanten` (`re.I`). -/
def anschriftHead (prev : Option Char) (s : Str) : Option Str :=
  if boundaryOk prev then matchLitCI "anschrift des lieferanten".data s else none

/-- Head of `\bSteuern\b` (`re.I`). -/
def steuernHead (prev : Option Char) (s : Str) : Option Str :=
  if boundaryOk prev then
    (matchLitCI "steuern".data s).bind fun r =>
      if boundaryOk r.head? then some r else none
  else none

/-- Head of `\bWeitere Angaben\b` (`re.I`). -/
def weitereHead (prev : Option Char) (s : Str) : Option Str :=
  if boundaryOk prev then
    (matchLitCI "weitere angaben".data s).bind fun r =>
      if boundaryOk r.head? then some r else none
  else none

/-- Suffix test for `\s*(\([a-z]\)\s*)+\s*$` (`re.I`): the whole suffix is
whitespace followed by one or more annotation markers (with interleaved
and trailing whitespace, which absorbs any final newline). -/
def trailAnnotsAt (s : Str) : Bool :=
  let s1 := skipWS s
  annotFullRe s1

/-- `re.sub(r"\s*(\([a-z]\)\s*)+\s*$", "", t, re.I)`: drop the matching
suffix at its leftmost start. -/
def removeTrailAnnots (t : Str) : Str :=
  go [] t
where
  go (acc : Str) : Str → Str
  | [] => acc.reverse
  | c :: r => if trailAnnotsAt (c :: r) then acc.reverse else go (c :: acc) r

/-- `t.lower().find(mk.lower())`. -/
def findSubCI (pat : Str) : Str → Option Nat :=
  go 0
where
  go (n : Nat) : Str → Option Nat
  | [] => if pat = [] then some n else none
  | c :: r =>
    if lowerL ((c :: r).take pat.length) = lowerL pat then some n else go (n + 1) r

/-- One marker of the heading-truncation loop:
`i = t.lower().find(mk.lower()); if i != -1: t = t[:i].strip()`. -/
def truncAtMarker (mk : Str) (t : Str) : Str :=
  match findSubCI mk t with
  | some i => stripWS (t.take i)
  | none => t

def cleanHeadingMarkers : List Str :=
  ["Produktdatenblatt", "Product information sheet", "Additional information",
   "Angaben zur Reparierbarkeit"].map String.data

/-- `\d{1,2}\.` head (greedy two digits, backtracking to one). -/
def numDotHead : Str → Option Str
  | d1 :: d2 :: '.' :: r =>
    if isDig d1 && isDig d2 then some r
    else if isDig d1 && d2 = '.' then some ('.' :: r)
    else none
  | d1 :: '.' :: r => if isDig d1 then some r else none
  | _ => none

/-- `re.sub(r"\d{1,2}\.\s+.+$", "", t)`: a numbered-section start followed
by whitespace and at least one more character on the line that ends the
string (the `.+` may fall back onto trailing non-newline whitespace when
the greedy `\s+` reaches the end). -/
def numSectionSub (t : Str) : Str :=
  go [] t
where
  matchHere (s : Str) : Option Str :=
    match numDotHead s with
    | none => none
    | some r =>
      let ws := r.takeWhile isWS
      let rest2 := r.drop ws.length
      if ws = [] then none
      else if rest2 = [] then
        if 2 ≤ ws.length && !(ws.getLast? = some '\n') then some [] else none
      else
        let line := rest2.takeWhile (fun d => !(d = '\n'))
        let after := rest2.drop line.length
        if !(line = []) && dollarOk after then some after else none
  go (acc : Str) : Str → Str
  | [] => acc.reverse
  | c :: r =>
    match matchHere (c :: r) with
    | some after => acc.reverse ++ after
    | none => go (c :: acc) r

def isAsciiLower (c : Char) : Bool := 97 ≤ cn c && cn c ≤ 122

def isAsciiUpper (c : Char) : Bool := 65 ≤ cn c && cn c ≤ 90

def isAsciiAlpha (c : Char) : Bool := isAsciiLower c || isAsciiUpper c

/-- Generic two-class boundary splitter, the common shape of the three
`re.sub(r"(X)(Y)", r"\1 \2", t)` word-ungluing passes. -/
def splitPair (p q : Char → Bool) : Str → Str
  | [] => []
  | [c] => [c]
  | c1 :: c2 :: r =>
    if p c1 && q c2 then c1 :: ' ' :: c2 :: splitPair p q r
    else c1 :: splitPair p q (c2 :: r)

/-- `https?://\S+` at one position. -/
def urlHead (s : Str) : Option Str :=
  (matchLit "http".data s).bind fun r =>
    let r1 := if r.head? = some 's' then r.tail else r
    (matchLit "://".data r1).bind fun r2 =>
      let w := r2.takeWhile (fun c => !isWS c)
      if w = [] then none else some (r2.drop w.length)

/-- `re.sub` with empty replacement for a head matcher that always
consumes at least one character (fuel = length keeps it structural). -/
def removeAllF (m : Str → Option Str) : Nat → Str → Str
  | _, [] => []
  | 0, s => s
  | fuel + 1, c :: r =>
    match m (c :: r) with
    | some rest => removeAllF m fuel rest
    | none => c :: removeAllF m fuel r

def removeAll (m : Str → Option Str) (t : Str) : Str := removeAllF m t.length t

/-- `PDFExtractor._clean_supplier` (lines 1697–1720). -/
def clean_supplier (v : Str) : Str :=
  let t := (stripWS v).map (fun c => if cn c = 8217 then '\'' else c)
  let t := cleanLeadAnnots t
  let t := cleanLabelPrefix t
  let t := subTailAll supplierAddrCleanHead t
  let t := subTailAll anschriftHead t
  let t := removeTrailAnnots t
  let t := cleanHeadingMarkers.foldl (fun acc mk => truncAtMarker mk acc) t
  let t := stripWS (numSectionSub t)
  let t := splitPair isAsciiLower isAsciiUpper t
  let t := splitPair isAsciiAlpha isDig t
  let t := splitPair isDig isAsciiAlpha t
  let t := removeAll urlHead t
  let t := subTailAll steuernHead t
  let t := subTailAll weitereHead t
  stripWS (squashWS t)

def supplierLabelsA : List Str :=
  ["Supplier information", "Lieferanteninformation", "Anschrift des Lieferanten",
   "Supplier's address", "Supplier address"].map String.data

def supplierLabelsB : List Str :=
  ["Supplier's address", "Supplier address", "Lieferant", "Supplier"].map String.data

def guaranteePhrases : List Str :=
  ["Minimum duration of the guarantee offered by the supplier",
   "Mindestdauer der vom Lieferanten angebotenen Garantie"].map String.data

/-- `_supplier` for one page: the six strategies in order, first valid
result cleaned and returned. -/
def supplierPage (text : Str) : Str :=
  let methods : List Str :=
    [inline_after text ["Anschrift des Lieferanten".data],
     supplier_address_table text,
     block_after text supplierLabelsA 5,
     block_after_phrases text guaranteePhrases 5,
     block_before text supplierLabelsB 4,
     labeled text (supplierLabelsA ++ supplierLabelsB) none]
  match methods.find? (fun val => !(val = []) && valid_supplier val) with
  | some val => clean_supplier val
  | none => []

/-- `_supplier`: first page (in order) that yields a valid value. -/
def supplierOf : List Str → Str
  | [] => []
  | text :: rest =>
    if text = [] then supplierOf rest
    else
      let v := supplierPage text
      if !(v = []) then v else supplierOf rest

/-! `extract_fields` (lines 1494–1537).  `_fetch`, `_text_pages` and
`_ocr_pages` are external I/O: `pages` is the Text Source output and
`ocrPages` the OCR Source output requested when a field is unresolved. -/

def NF : Str := "Not found".data

/-- The extraction body of `extract_fields` after brand validation
(lines 1516–1537): page-position heuristics (page 6 for energy, page 25
for supplier), full scan, then the OCR fallback, then the
`"Not found"` defaults. -/
def extractCore (pages : List Str) (ocrEnabled : Bool) (ocrPages : List Str) :
    Str × Str :=
  let energy0 := if 6 ≤ pages.length then energyOf [pages.getD 5 []] else []
  let energy1 := if energy0 = [] then energyOf pages else energy0
  let supplier0 := if 25 ≤ pages.length then supplierOf [pages.getD 24 []] else []
  let supplier1 := if supplier0 = [] then supplierOf pages else supplier0
  let es :=
    if ocrEnabled && ((energy1 = []) || (supplier1 = [])) then
      if !(ocrPages = []) then
        ((if energy1 = [] then energyOf ocrPages else energy1),
         (if supplier1 = [] then supplierOf ocrPages else supplier1))
      else (energy1, supplier1)
    else (energy1, supplier1)
  ((if es.1 = [] then NF else es.1), (if es.2 = [] then NF else es.2))

/-- `extract_fields` from the page-text level: the brand-validation guard
(lines 1506–1514) in front of `extractCore`.  Python's
`if expected_brand and pages:` tests the truthiness of the brand string
and of the pages **list** (not of any page's text). -/
def extractFields (pages : List Str) (expected_brand : Option Str)
    (ocrEnabled : Bool) (ocrPages : List Str) : Str × Str :=
  match expected_brand with
  | some eb =>
    if !(eb = []) && !(pages = []) then
      let full := lowerL (joinSpace pages)
      let tokens := eb :: (brandLines eb).getD []
      if tokens.any (fun t => isSubstr t full) then extractCore pages ocrEnabled ocrPages
      else (NF, NF)
    else extractCore pages ocrEnabled ocrPages
  | none => extractCore pages ocrEnabled ocrPages

/-! ### Claim C6: the supplier address-table scenario -/

/-- C6: for a page text with the two lines
`"Supplier's address (a) (b) (g) Apple Distribution International Limited"`
and `"Hollyhill Industrial Estate"`, the supplier extractor returns exactly
`"Apple Distribution International Limited Hollyhill Industrial Estate"`:
the label and parenthesized annotations are stripped, the lines joined by
a single space, whitespace collapsed. -/
theorem C6_supplier_scenario :
    supplierOf
      ["Supplier's address (a) (b) (g) Apple Distribution International Limited\nHollyhill Industrial Estate".data]
      = "Apple Distribution International Limited Hollyhill Industrial Estate".data := by
  decide

/-! ### Claim C7: brand validation of the document -/

/-- C7 counterexample: with the single page `""` (so **every page text is
empty** but the pages list is non-empty), an expected brand, and OCR text
available, `extract_fields` abandons the extraction and returns
`("Not found", "Not found")` — although the claim says the extraction is
not abandoned on this ground when every page text is empty: the
unabandoned path (`extractCore`) would have recovered the energy class
`"A"` from the OCR fallback. -/
theorem C7_counterexample :
    (∀ p ∈ [([] : Str)], p = []) ∧
    extractFields [[]] (some "apple".data) true ["Energieeffizienzklasse: A".data]
      = (NF, NF) ∧
    extractCore [[]] true ["Energieeffizienzklasse: A".data] = ("A".data, NF) :=
  ⟨by decide, by decide, by decide⟩

/-- C7 (amended): the extraction is abandoned — both fields `"Not found"`
— exactly when a non-empty expected brand is supplied, the pages **list**
is non-empty (even if every page text is empty), and the concatenation of
the pages contains neither the brand nor any of its catalog product lines
(case-insensitively, via lowercasing); with no expected brand, an empty
brand string, or an empty pages list the validation is skipped and the
extraction proceeds unabandoned. -/
theorem C7_brand_validation (pages : List Str) (eb : Str) (oe : Bool) (ocr : List Str) :
    (extractFields pages none oe ocr = extractCore pages oe ocr) ∧
    (¬ (eb ≠ [] ∧ pages ≠ []) →
      extractFields pages (some eb) oe ocr = extractCore pages oe ocr) ∧
    ((eb ≠ [] ∧ pages ≠ []) →
      ((eb :: (brandLines eb).getD []).any
          (fun t => isSubstr t (lowerL (joinSpace pages))) = false) →
      extractFields pages (some eb) oe ocr = (NF, NF)) ∧
    ((eb ≠ [] ∧ pages ≠ []) →
      ((eb :: (brandLines eb).getD []).any
          (fun t => isSubstr t (lowerL (joinSpace pages))) = true) →
      extractFields pages (some eb) oe ocr = extractCore pages oe ocr) := by
  refine ⟨rfl, ?_, ?_, ?_⟩
  · intro h
    simp only [extractFields]
    rw [if_neg]
    simp only [Bool.and_eq_true, Bool.not_eq_true', decide_eq_false_iff_not]
    intro hcontra
    exact h ⟨hcontra.1, hcontra.2⟩
  · rintro ⟨h1, h2⟩ hany
    simp only [extractFields]
    rw [if_pos (by simp [h1, h2]), if_neg (by simp [hany])]
  · rintro ⟨h1, h2⟩ hany
    simp only [extractFields]
    rw [if_pos (by simp [h1, h2]), if_pos hany]

/-- Witness for C7: a one-page document with no trace of the expected
brand is abandoned. -/
theorem C7_witness :
    extractFields ["Samsung something".data] (some "apple".data) true [] = (NF, NF) :=
  (C7_brand_validation ["Samsung something".data] "apple".data true []).2.2.1
    ⟨by decide, by decide⟩ (by decide)

/-! ### Claim C8: the "Not found" field convention -/

/-- `ProductData` (lines 77–85). -/
structure ProductData where
  input_ean : Str
  product_url : Str
  pdf_link : Str
  energy_efficiency_class : Str
  energylevel_link : Str
  supplier_information : Str
deriving DecidableEq, Repr

/-- The result-assembly step of `Scraper.scrape` (lines 1884–1896): the
energy value is discarded when the energy image link is missing, the PDF
supplier is the fallback for the popup supplier, and empty fields become
`"Not found"`. -/
def mkProductData (query url pdf energy energy_img supplier pdf_supplier : Str) :
    ProductData :=
  let energy := if (energy_img = []) || energy_img = NF then [] else energy
  let supplier :=
    if (supplier = []) && !(pdf_supplier = []) && !(pdf_supplier = NF) then pdf_supplier
    else supplier
  { input_ean := query
    product_url := url
    pdf_link := pdf
    energy_efficiency_class := if energy = [] then NF else energy
    energylevel_link := if energy_img = [] then NF else energy_img
    supplier_information := if supplier = [] then NF else supplier }

/-- One output row of `Scraper.run` (lines 1933–1938): the scraped record
when matching succeeded, otherwise the query followed by every other
field as the **empty** string. -/
def resultRow (q : Str) (prod : Option ProductData) : List Str :=
  match prod with
  | some p => [p.input_ean, p.product_url, p.pdf_link, p.energy_efficiency_class,
               p.energylevel_link, p.supplier_information]
  | none => [q, [], [], [], [], []]

/-- C8 counterexample: for a query whose matching fails entirely
(`prod = none`), the per-query result row holds the **empty string** — not
`"Not found"` — in the energy-efficiency-class column (index 3) and the
supplier-information column (index 5). -/
theorem C8_counterexample :
    resultRow "iphone 17".data none = ["iphone 17".data, [], [], [], [], []] ∧
    (resultRow "iphone 17".data none).getD 3 NF = [] ∧
    ¬ ((resultRow "iphone 17".data none).getD 3 NF = NF) ∧
    (resultRow "iphone 17".data none).getD 5 NF = [] :=
  ⟨by decide, by decide, by decide, by decide⟩

/-- C8 (amended): for every query for which a product record is produced
(matching succeeded), the energy-efficiency-class, energy-image-link and
supplier-information fields are never the empty string, and an unresolved
field is the literal `"Not found"`; for a query whose matching fails
entirely, every field except the query column is the empty string. -/
theorem C8_unresolved_fields (q url pdf energy energy_img supplier pdf_supplier : Str) :
    ((mkProductData q url pdf energy energy_img supplier pdf_supplier).energy_efficiency_class ≠ [] ∧
     (mkProductData q url pdf energy energy_img supplier pdf_supplier).energylevel_link ≠ [] ∧
     (mkProductData q url pdf energy energy_img supplier pdf_supplier).supplier_information ≠ []) ∧
    (energy = [] →
      (mkProductData q url pdf energy energy_img supplier pdf_supplier).energy_efficiency_class = NF) ∧
    (supplier = [] ∧ (pdf_supplier = [] ∨ pdf_supplier = NF) →
      (mkProductData q url pdf energy energy_img supplier pdf_supplier).supplier_information = NF) ∧
    (resultRow q none = [q, [], [], [], [], []]) := by
  refine ⟨⟨?_, ?_, ?_⟩, ?_, ?_, rfl⟩
  · simp only [mkProductData]
    split_ifs <;> simp_all [NF]
  · simp only [mkProductData]
    split_ifs <;> simp_all [NF]
  · simp only [mkProductData]
    split_ifs <;> simp_all [NF]
  · intro h
    simp only [mkProductData, h]
    split_ifs <;> simp_all [NF]
  · rintro ⟨h1, h2⟩
    simp only [mkProductData, h1]
    rcases h2 with h2 | h2 <;> split_ifs <;> simp_all [NF]

/-- Witness for C8: an entirely-unresolved but matched record reports
`"Not found"` in the energy field. -/
theorem C8_witness :
    (mkProductData "q".data [] [] [] [] [] []).energy_efficiency_class = NF :=
  (C8_unresolved_fields "q".data [] [] [] [] [] []).2.1 rfl

/-! ### Claim C5: the shape of extracted energy classes -/

/-- The pattern `^[A-G]\+{0,3}$` exactly as claim C5 states it: one
uppercase letter `A`–`G` followed by at most three plus signs. -/
def claimEnergyPattern (v : Str) : Bool :=
  match v with
  | c :: r => (65 ≤ cn c && cn c ≤ 71) && r.all (fun d => d = '+') && r.length ≤ 3
  | [] => false

/-- Worker for `plusGroups`: `pending` records whitespace read that still
needs its `+`. -/
def plusGroupsAux : Nat → Bool → Str → Bool
  | _, pending, [] => !pending
  | n, _, c :: r =>
    if c = '+' then
      match n with
      | 0 => false
      | n + 1 => plusGroupsAux n false r
    else if isWS c && !(c = ' ') then plusGroupsAux n true r
    else false

/-- Up to `n` repetitions of (non-space whitespace)* `+`. -/
def plusGroups (n : Nat) (s : Str) : Bool := plusGroupsAux n false s

/-- The shape every energy value the extractor can produce satisfies: a
letter `A`–`G` in either case, followed by at most three plus signs, each
optionally preceded by whitespace other than the space character (spaces
are stripped from strategy 1's capture, other whitespace is not). -/
def energyShape (v : Str) : Bool :=
  match v with
  | c :: r => isEnergyLetter c && plusGroups 3 r
  | [] => false

theorem search1_some {α : Type} {m : Str → Option α} {v : α} :
    ∀ {s : Str}, search1 m s = some v → ∃ s', m s' = some v := by
  intro s
  induction s with
  | nil =>
    intro h
    exact ⟨[], by simpa [search1] using h⟩
  | cons c r ih =>
    intro h
    simp only [search1] at h
    rcases hm : m (c :: r) with - | w
    · rw [hm] at h
      exact ih h
    · rw [hm] at h
      dsimp only at h
      exact ⟨c :: r, hm.trans h⟩

theorem searchPrev_some {α : Type} {m : Option Char → Str → Option α} {v : α} :
    ∀ {prev : Option Char} {s : Str},
      searchPrev m prev s = some v → ∃ p' s', m p' s' = some v := by
  intro prev s
  induction s generalizing prev with
  | nil =>
    intro h
    exact ⟨prev, [], by simpa [searchPrev] using h⟩
  | cons c r ih =>
    intro h
    simp only [searchPrev] at h
    rcases hm : m prev (c :: r) with - | w
    · rw [hm] at h
      exact ih h
    · rw [hm] at h
      dsimp only at h
      exact ⟨prev, c :: r, hm.trans h⟩

/-- Prepending whitespace-before-a-plus consumes one group. -/
theorem plusGroupsAux_group {rest : Str} (n : Nat) :
    ∀ (ws : Str) (b : Bool), (∀ d ∈ ws, (isWS d && !(d = ' ')) = true) →
    plusGroupsAux (n + 1) b (ws ++ '+' :: rest) = plusGroupsAux n false rest := by
  intro ws
  induction ws with
  | nil =>
    intro b _
    simp [plusGroupsAux]
  | cons d ws' ih =>
    intro b hws
    have hd : (isWS d && !(d = ' ')) = true := hws d (by simp)
    have hdp : ¬(d = '+') := by
      intro he
      subst he
      simp only [Bool.and_eq_true] at hd
      exact absurd hd.1 (by decide)
    simp only [List.cons_append, plusGroupsAux, if_neg hdp, if_pos hd]
    exact ih true (fun e he => hws e (by simp [he]))

theorem plusGroups_group {ws rest : Str} (n : Nat)
    (hws : ∀ d ∈ ws, (isWS d && !(d = ' ')) = true) :
    plusGroups (n + 1) (ws ++ '+' :: rest) = plusGroups n rest :=
  plusGroupsAux_group n ws false hws

/-- The space-filtered output of `grabPlus n` consists of at most `n`
groups of non-space whitespace and a plus sign. -/
theorem grabPlus_shape : ∀ (n : Nat) (r : Str),
    plusGroups n ((grabPlus n r).filter (fun c => !(c = ' '))) = true := by
  intro n
  induction n with
  | zero => intro r; simp [grabPlus, plusGroups, plusGroupsAux]
  | succ n ih =>
    intro r
    simp only [grabPlus]
    rcases hd : (r.drop (r.takeWhile isWS).length) with - | ⟨c, r2⟩
    · simp [plusGroups, plusGroupsAux]
    · by_cases hc : c = '+'
      · subst hc
        simp only [List.filter_append, List.filter_cons]
        have hplus : (decide ¬('+' = ' ')) = true := by decide
        have hws : ∀ d ∈ (r.takeWhile isWS).filter (fun c => !(c = ' ')),
            (isWS d && !(d = ' ')) = true := by
          intro d hdmem
          rw [List.mem_filter] at hdmem
          have := List.mem_takeWhile_imp hdmem.1
          simp [this, hdmem.2]
        rw [if_pos (by decide), plusGroups_group n hws]
        exact ih r2
      · simp [hc, plusGroups, plusGroupsAux]

theorem plusGroups_of_plusses : ∀ (l : Str) (n : Nat), (∀ c ∈ l, c = '+') →
    l.length ≤ n → plusGroups n l = true := by
  intro l
  induction l with
  | nil => intro n _ _; simp [plusGroups, plusGroupsAux]
  | cons c r ih =>
    intro n hall hlen
    have hc : c = '+' := hall c (by simp)
    subst hc
    cases n with
    | zero => simp at hlen
    | succ m =>
      simp only [plusGroups, plusGroupsAux, if_pos rfl]
      exact ih m (fun d hd => hall d (by simp [hd])) (by simpa using hlen)

theorem energyVreAt_shape {s v : Str} (h : energyVreAt s = some v) :
    energyShape v = true := by
  cases s with
  | nil => simp [energyVreAt] at h
  | cons c r =>
    simp only [energyVreAt] at h
    split at h
    · rcases Option.some_inj.1 h with rfl
      simp only [energyShape, Bool.and_eq_true]
      constructor
      · simp only [isEnergyLetter, Bool.or_eq_true, Bool.and_eq_true, decide_eq_true_eq]
        left
        simp_all [Bool.and_eq_true, decide_eq_true_eq]
      · apply plusGroups_of_plusses
        · intro d hd
          have := List.mem_takeWhile_imp (List.mem_of_mem_take hd)
          simpa using this
        · have := List.length_take_le 3 (r.takeWhile (fun d => d = '+'))
          omega
    · exact absurd h (by simp)

theorem singleEnergyAt_shape {p : Option Char} {s v : Str}
    (h : singleEnergyAt p s = some v) : energyShape v = true := by
  simp only [singleEnergyAt] at h
  split at h
  · cases s with
    | nil => simp at h
    | cons c r =>
      simp only at h
      split at h
      · rcases Option.some_inj.1 h with rfl
        simp only [energyShape, Bool.and_eq_true]
        refine ⟨?_, by simp [plusGroups, plusGroupsAux]⟩
        simp only [isEnergyLetter, Bool.or_eq_true, Bool.and_eq_true, decide_eq_true_eq]
        left
        simp_all [Bool.and_eq_true, decide_eq_true_eq]
      · exact absurd h (by simp)
  · exact absurd h (by simp)

theorem grabEnergyGroup_shape {s g : Str} (h : grabEnergyGroup s = some g) :
    energyShape (g.filter (fun c => !(c = ' '))) = true := by
  cases s with
  | nil => simp [grabEnergyGroup] at h
  | cons c r =>
    simp only [grabEnergyGroup] at h
    by_cases hc : isEnergyLetter c = true
    · rw [if_pos hc] at h
      rcases Option.some_inj.1 h with rfl
      have hcne : ¬ (c = ' ') := by
        intro he
        subst he
        exact absurd hc (by decide)
      simp only [List.filter_cons]
      rw [if_pos (by simp [hcne])]
      simp only [energyShape, Bool.and_eq_true]
      exact ⟨hc, grabPlus_shape 3 r⟩
    · rw [if_neg hc] at h
      simp at h

theorem energyDirect_shape {text v : Str} (h : energyDirect text = some v) :
    energyShape v = true := by
  simp only [energyDirect, Option.map_eq_some'] at h
  obtain ⟨g, hg, rfl⟩ := h
  obtain ⟨s', hs'⟩ := search1_some hg
  simp only [energyDirectAt, Option.bind_eq_some] at hs'
  obtain ⟨r, -, hr⟩ := hs'
  exact grabEnergyGroup_shape hr

theorem labeledInner_vre_shape {f : Str → Option Str}
    (hf : ∀ {c v : Str}, f c = some v → energyShape v = true) {lb : Str} :
    ∀ {lines : List Str} {v : Str}, labeledInner (some f) lb lines = some v →
      v = [] ∨ energyShape v = true := by
  intro lines
  induction lines with
  | nil => intro v h; simp [labeledInner] at h
  | cons line rest ih =>
    intro v h
    simp only [labeledInner] at h
    split at h
    · split at h
      · rcases Option.some_inj.1 h with rfl
        rcases hfc : f (stripWS _) with - | w
        · left; simp [hfc]
        · right; simp only [hfc, Option.getD_some]; exact hf hfc
      · split at h
        · rcases Option.some_inj.1 h with rfl
          rcases hfc : f (stripWS _) with - | w
          · left; simp [hfc]
          · right; simp only [hfc, Option.getD_some]; exact hf hfc
        · exact ih h
    · exact ih h

theorem labeled_vre_shape {text : Str} {labels : List Str} {f : Str → Option Str}
    (hf : ∀ {c v : Str}, f c = some v → energyShape v = true) :
    labeled text labels (some f) = [] ∨ energyShape (labeled text labels (some f)) = true := by
  unfold labeled
  split
  · left; rfl
  · rcases hfind : labels.findSome? (fun lb => labeledInner (some f) lb (stripLines text))
        with - | v
    · left; simp
    · obtain ⟨lb, -, hlb⟩ := List.exists_of_findSome?_eq_some hfind
      simp only [Option.getD_some]
      exact labeledInner_vre_shape hf hlb

theorem energyLines_shape : ∀ {lines : List Str} {v : Str},
    energyLines lines = some v → energyShape v = true := by
  intro lines
  induction lines with
  | nil => intro v h; simp [energyLines] at h
  | cons line rest ih =>
    intro v h
    simp only [energyLines] at h
    split at h
    · rcases hsearch : searchPrev singleEnergyAt none
          (line ++ rest.head?.elim [] (fun next => ' ' :: next)) with - | w
      · rw [hsearch] at h
        dsimp only at h
        exact ih h
      · rw [hsearch] at h
        dsimp only at h
        rcases Option.some_inj.1 h with rfl
        obtain ⟨p', s', hp⟩ := searchPrev_some hsearch
        exact singleEnergyAt_shape hp
    · exact ih h

theorem energyPage_shape (text : Str) :
    energyPage text = [] ∨ energyShape (energyPage text) = true := by
  unfold energyPage
  rcases hdir : energyDirect text with - | v
  · simp only
    split
    · right
      rcases @labeled_vre_shape text
          ["Energy efficiency class".data, "Energieeffizienzklasse".data]
          (search1 energyVreAt)
          (fun h => by obtain ⟨s', hs'⟩ := search1_some h; exact energyVreAt_shape hs')
        with h | h
      · simp_all
      · exact h
    · rcases hlines : energyLines (splitlines text) with - | w
      · left; simp
      · right
        simp only [Option.getD_some]
        exact energyLines_shape hlines
  · right
    exact energyDirect_shape hdir

theorem energyOf_shape : ∀ pages : List Str,
    energyOf pages = [] ∨ energyShape (energyOf pages) = true := by
  intro pages
  induction pages with
  | nil => left; rfl
  | cons text rest ih =>
    simp only [energyOf]
    split
    · exact ih
    · split
      · rcases energyPage_shape text with h | h
        · simp_all
        · right; exact h
      · exact ih

theorem orNF_shape {x : Str} (hx : x = [] ∨ energyShape x = true) :
    (if x = [] then NF else x) = NF ∨ energyShape (if x = [] then NF else x) = true := by
  by_cases h : x = []
  · left; simp [h]
  · right
    rw [if_neg h]
    rcases hx with h' | h'
    · exact absurd h' h
    · exact h'

theorem extractCore_energy_shape (pages : List Str) (oe : Bool) (ocr : List Str) :
    (extractCore pages oe ocr).1 = NF ∨ energyShape (extractCore pages oe ocr).1 = true := by
  unfold extractCore
  dsimp only
  apply orNF_shape
  split_ifs <;>
    first
      | exact Or.inl rfl
      | exact energyOf_shape _

/-- C5 counterexample: a page whose text is
`"energieeffizienzklasse b\t+"` makes the extractor return `"b\t+"` — not
`"Not found"`, and not matching `^[A-G]\+{0,3}$` (the captured letter is
taken case-insensitively, and only spaces, not tabs, are stripped from the
capture). -/
theorem C5_counterexample :
    (extractFields ["energieeffizienzklasse b\t+".data] none true []).1 = "b\t+".data ∧
    ¬ ("b\t+".data = NF) ∧
    claimEnergyPattern "b\t+".data = false :=
  ⟨by decide, by decide, by decide⟩

/-- C5 (amended): every `energy_class` value produced by the extractor,
other than the sentinel `"Not found"`, is one letter `A`–`G` **in either
case** followed by at most three plus signs, each optionally preceded by
**whitespace other than the space character** (`energyShape`); the
uppercase-only, plus-signs-only pattern of the claim is what remains when
strategy 1 matches an uppercase label value with no embedded tabs or
newlines. -/
theorem C5_energy_class_shape (pages : List Str) (eb : Option Str) (oe : Bool)
    (ocr : List Str) :
    (extractFields pages eb oe ocr).1 = NF ∨
    energyShape (extractFields pages eb oe ocr).1 = true := by
  unfold extractFields
  rcases eb with - | b
  · exact extractCore_energy_shape pages oe ocr
  · dsimp only
    split_ifs <;> first
      | exact extractCore_energy_shape pages oe ocr
      | exact Or.inl rfl

/-! ### Claim C9: the effect of appending a matching search token

The claim is about `_evaluate_card`'s additive score when one more word
matching a query search token is appended to the scored text.  The lemmas
below characterize whole-word search, `str.split()` and the sub-family
regexes under appending ` w` (a space and a word of word characters), and
combine them into monotonicity of `cardScore`. -/

theorem isGood_isWordChar {c : Char} (h : isGood c = true) : isWordChar c = true := by
  simp only [isGood, Bool.or_eq_true] at h
  simp only [isWordChar, Bool.or_eq_true]
  tauto

theorem isWS_not_isWordChar {c : Char} (h : isWS c = true) : isWordChar c = false := by
  simp only [isWS, Bool.or_eq_true, decide_eq_true_eq] at h
  simp only [isWordChar, isLet, isDig, cn, Bool.or_eq_false_iff, Bool.and_eq_false_iff,
    Bool.or_eq_false_iff, decide_eq_false_iff_not, cn] at *
  omega

theorem boundaryOk_space : boundaryOk (some ' ') = true := by decide

/-- Python `pat in s` is the sublist-of-consecutive-elements relation. -/
theorem isSubstr_iff (pat : Str) : ∀ s : Str, isSubstr pat s = true ↔ pat <:+: s := by
  intro s
  induction s with
  | nil =>
    rw [isSubstr, List.isPrefixOf_iff_prefix, List.prefix_nil, List.infix_nil]
  | cons c r ih =>
    rw [isSubstr, Bool.or_eq_true, List.isPrefixOf_iff_prefix, ih, List.infix_cons_iff]

/-- A substring of `s` is a substring of any right extension of `s`. -/
theorem isSubstr_append_right (pat s ext : Str) (h : isSubstr pat s = true) :
    isSubstr pat (s ++ ext) = true := by
  rw [isSubstr_iff] at h ⊢
  exact h.trans (List.prefix_append s ext).isInfix

theorem getLast?_or_cons (c : Char) (a : Str) (prev : Option Char) :
    ((c :: a).getLast?).or prev = (a.getLast?).or (some c) := by
  induction a generalizing c prev with
  | nil => rfl
  | cons x a ih => rw [List.getLast?_cons_cons, ih, ih]

theorem getLast?_some_concat {a : Str} {x : Char} (h : a.getLast? = some x) :
    ∃ a0, a = a0 ++ [x] := by
  induction a with
  | nil => cases h
  | cons c r ih =>
    cases r with
    | nil =>
      rw [List.getLast?_singleton] at h
      exact ⟨[], by simp [Option.some_inj.mp h]⟩
    | cons d r' =>
      rw [List.getLast?_cons_cons] at h
      obtain ⟨a0, ha⟩ := ih h
      exact ⟨c :: a0, by rw [List.cons_append, ← ha]⟩

/-- Decomposition characterization of the whole-word scan: `\b t \b`
occurs in `s` (whose preceding character is `prev`) iff `s` splits as
`a ++ t ++ b` with word boundaries on both sides. -/
theorem containsWWAux_iff (t : Str) : ∀ (s : Str) (prev : Option Char),
    containsWWAux t prev s = true ↔
      ∃ a b, s = a ++ (t ++ b) ∧ boundaryOk ((a.getLast?).or prev) = true ∧
        boundaryOk b.head? = true := by
  intro s
  induction s with
  | nil =>
    intro prev
    constructor
    · intro h
      rw [containsWWAux, wwAt] at h
      simp only [Bool.and_eq_true, List.isPrefixOf_iff_prefix, List.prefix_nil] at h
      obtain ⟨⟨ht, hb1⟩, hb2⟩ := h
      exact ⟨[], [], by simp [ht], by simpa using hb1, rfl⟩
    · rintro ⟨a, b, hs, h1, h2⟩
      obtain ⟨ha, htb⟩ := List.append_eq_nil.mp hs.symm
      obtain ⟨ht, hb⟩ := List.append_eq_nil.mp htb
      subst ha ht hb
      rw [containsWWAux, wwAt]
      simp only [Bool.and_eq_true, List.isPrefixOf_iff_prefix]
      exact ⟨⟨List.prefix_nil.mpr rfl, by simpa using h1⟩, rfl⟩
  | cons c r ih =>
    intro prev
    rw [containsWWAux, Bool.or_eq_true, ih (some c)]
    constructor
    · rintro (hw | ⟨a, b, hr, h1, h2⟩)
      · rw [wwAt] at hw
        simp only [Bool.and_eq_true, List.isPrefixOf_iff_prefix] at hw
        obtain ⟨⟨hpre, hb1⟩, hb2⟩ := hw
        obtain ⟨b, hb⟩ := hpre
        refine ⟨[], b, by rw [List.nil_append, hb], by simpa using hb1, ?_⟩
        rwa [← hb, List.drop_left] at hb2
      · exact ⟨c :: a, b, by rw [hr, List.cons_append], by rwa [getLast?_or_cons], h2⟩
    · rintro ⟨a, b, hs, h1, h2⟩
      cases a with
      | nil =>
        left
        rw [List.nil_append] at hs
        rw [wwAt]
        simp only [Bool.and_eq_true, List.isPrefixOf_iff_prefix]
        refine ⟨⟨⟨b, hs.symm⟩, by simpa using h1⟩, ?_⟩
        rw [hs, List.drop_left]
        exact h2
      | cons x a' =>
        right
        rw [List.cons_append] at hs
        injection hs with hcx hr
        subst hcx
        refine ⟨a', b, hr, ?_, h2⟩
        rwa [getLast?_or_cons] at h1

theorem hasWW_iff (t s : Str) :
    hasWW t s = true ↔
      ∃ a b, s = a ++ (t ++ b) ∧ boundaryOk a.getLast? = true ∧
        boundaryOk b.head? = true := by
  rw [hasWW, containsWWAux_iff]
  simp only [Option.or_none]

/-- A whole-word occurrence survives appending a space and anything. -/
theorem hasWW_append_sep (t s u : Str) (h : hasWW t s = true) :
    hasWW t (s ++ ' ' :: u) = true := by
  rw [hasWW_iff] at h ⊢
  obtain ⟨a, b, hs, h1, h2⟩ := h
  refine ⟨a, b ++ ' ' :: u, ?_, h1, ?_⟩
  · rw [hs]
    simp [List.append_assoc]
  · cases b with
    | nil => exact boundaryOk_space
    | cons x b' => simpa using h2

/-- Eliminating a whole-word occurrence in `s ++ ' ' :: u` for an all-word
token `t` and an all-word appended word `u`: the occurrence lies inside
`s`, or `t` is exactly `u`. -/
theorem hasWW_append_elim (t s u : Str) (htw : ∀ c ∈ t, isWordChar c = true)
    (huw : ∀ c ∈ u, isWordChar c = true)
    (h : hasWW t (s ++ ' ' :: u) = true) :
    hasWW t s = true ∨ t = u := by
  rw [hasWW_iff] at h
  obtain ⟨a, b, hs, h1, h2⟩ := h
  by_cases hn1 : a.length + t.length ≤ s.length
  · left
    rw [hasWW_iff]
    have hsplit : s.take (a.length + t.length) = a ++ t := by
      rw [← @List.take_append_of_le_length Char s (' ' :: u) _ hn1, hs, ← List.append_assoc,
        ← List.length_append, List.take_left]
    have hb : s.drop (a.length + t.length) ++ ' ' :: u = b := by
      rw [← List.drop_append_of_le_length hn1, hs, ← List.append_assoc,
        ← List.length_append, List.drop_left]
    refine ⟨a, s.drop (a.length + t.length), ?_, h1, ?_⟩
    · conv_lhs => rw [← List.take_append_drop (a.length + t.length) s]
      rw [hsplit, List.append_assoc]
    · rcases hd : s.drop (a.length + t.length) with - | ⟨x, r⟩
      · rfl
      · rw [← hb, hd] at h2
        simpa using h2
  · by_cases hn2 : a.length ≤ s.length
    · exfalso
      have hidx : (s ++ ' ' :: u)[s.length]? = some ' ' := by
        rw [List.getElem?_append_right (le_refl _)]
        simp
      rw [hs, List.getElem?_append_right hn2, List.getElem?_append,
        if_pos (show s.length - a.length < t.length by omega)] at hidx
      exact absurd (htw ' ' (List.getElem?_mem hidx)) (by decide)
    · push_neg at hn2
      by_cases hn3 : a.length = s.length + 1
      · have h5 : (s ++ ' ' :: u).drop a.length = t ++ b := by rw [hs, List.drop_left]
        rw [hn3, show s ++ ' ' :: u = (s ++ [' ']) ++ u by simp,
          show s.length + 1 = (s ++ [' ']).length by simp, List.drop_left] at h5
        cases b with
        | nil =>
          right
          rw [List.append_nil] at h5
          exact h5.symm
        | cons x b' =>
          exfalso
          have hx : x ∈ u := by
            rw [h5]
            simp
          simp [boundaryOk, huw x hx] at h2
      · exfalso
        have hga : a.getLast? = (s ++ ' ' :: u)[a.length - 1]? := by
          rw [List.getLast?_eq_getElem?, hs, List.getElem?_append,
            if_pos (show a.length - 1 < a.length by omega)]
        obtain ⟨y, hy⟩ := Option.isSome_iff_exists.mp
          (List.getLast?_isSome.mpr (show a ≠ [] by intro h0; rw [h0] at hn2; simp at hn2))
        have hyu : y ∈ u := by
          rw [hy, List.getElem?_append_right (show s.length ≤ a.length - 1 by omega),
            show a.length - 1 - s.length = (a.length - 2 - s.length) + 1 by omega,
            List.getElem?_cons_succ] at hga
          exact List.getElem?_mem hga.symm
        rw [hy] at h1
        simp [boundaryOk, huw y hyu] at h1

/-- `str.split()` of a nonempty whitespace-free string is that one word,
whatever is already accumulated. -/
theorem pysplitGo_words (w : Str) : ∀ cur : Str, w ≠ [] → (∀ c ∈ w, isWS c = false) →
    pysplitGo cur w = [cur.reverse ++ w] := by
  induction w with
  | nil =>
    intro cur h _
    exact absurd rfl h
  | cons c w' ih =>
    intro cur _ hws
    have hc : isWS c = false := hws c (by simp)
    rw [pysplitGo, if_neg (by simp [hc])]
    cases w' with
    | nil => simp [pysplitGo]
    | cons d w'' =>
      rw [ih (c :: cur) (by simp) (fun x hx => hws x (List.mem_cons_of_mem c hx))]
      simp

/-- `str.split()` after appending a space and one clean word appends that
word as one further token. -/
theorem pysplitGo_append_sep (w : Str) (hw : w ≠ []) (hws : ∀ c ∈ w, isWS c = false) :
    ∀ (a cur : Str), pysplitGo cur (a ++ ' ' :: w) = pysplitGo cur a ++ [w] := by
  intro a
  induction a with
  | nil =>
    intro cur
    rw [List.nil_append]
    simp only [pysplitGo, isWS_space, if_true]
    rw [pysplitGo_words w [] hw hws]
    by_cases hcur : cur = [] <;> simp [hcur]
  | cons c a' ih =>
    intro cur
    rw [List.cons_append]
    by_cases hc : isWS c = true
    · simp only [pysplitGo, hc, if_true]
      rw [ih []]
      by_cases hcur : cur = [] <;> simp [hcur]
    · simp only [pysplitGo, hc, if_false]
      exact ih (c :: cur)

theorem pysplit_append_sep (s w : Str) (hw : w ≠ []) (hws : ∀ c ∈ w, isWS c = false) :
    pysplit (s ++ ' ' :: w) = pysplit s ++ [w] :=
  pysplitGo_append_sep w hw hws s []

/-- Tokens produced by `str.split()` are nonempty and whitespace-free. -/
theorem pysplitGo_mem_no_ws : ∀ (s cur t : Str), (∀ c ∈ cur, isWS c = false) →
    t ∈ pysplitGo cur s → t ≠ [] ∧ ∀ c ∈ t, isWS c = false := by
  intro s
  induction s with
  | nil =>
    intro cur t hcur ht
    rw [pysplitGo] at ht
    by_cases h0 : cur = []
    · rw [if_pos h0] at ht
      simp at ht
    · rw [if_neg h0] at ht
      rw [List.mem_singleton] at ht
      subst ht
      refine ⟨by simpa using h0, fun c hc => hcur c (List.mem_reverse.mp hc)⟩
  | cons c r ih =>
    intro cur t hcur ht
    rw [pysplitGo] at ht
    by_cases hc : isWS c = true
    · rw [if_pos hc] at ht
      by_cases h0 : cur = []
      · rw [if_pos h0] at ht
        exact ih [] t (by simp) ht
      · rw [if_neg h0] at ht
        rcases List.mem_cons.mp ht with rfl | ht'
        · refine ⟨by simpa using h0, fun x hx => hcur x (List.mem_reverse.mp hx)⟩
        · exact ih [] t (by simp) ht'
    · rw [if_neg hc] at ht
      refine ih (c :: cur) t ?_ ht
      intro x hx
      rcases List.mem_cons.mp hx with rfl | hx'
      · simpa using hc
      · exact hcur x hx'

/-- Characters of a `str.split()` token come from the accumulator or the
input. -/
theorem pysplitGo_mem_subset : ∀ (s cur t : Str), t ∈ pysplitGo cur s →
    ∀ c ∈ t, c ∈ cur ∨ c ∈ s := by
  intro s
  induction s with
  | nil =>
    intro cur t ht c hc
    rw [pysplitGo] at ht
    by_cases h0 : cur = []
    · rw [if_pos h0] at ht
      simp at ht
    · rw [if_neg h0] at ht
      rw [List.mem_singleton] at ht
      subst ht
      exact Or.inl (List.mem_reverse.mp hc)
  | cons x r ih =>
    intro cur t ht c hc
    rw [pysplitGo] at ht
    by_cases hx : isWS x = true
    · rw [if_pos hx] at ht
      by_cases h0 : cur = []
      · rw [if_pos h0] at ht
        rcases ih [] t ht c hc with h | h
        · simp at h
        · exact Or.inr (List.mem_cons_of_mem x h)
      · rw [if_neg h0] at ht
        rcases List.mem_cons.mp ht with rfl | ht'
        · exact Or.inl (List.mem_reverse.mp hc)
        · rcases ih [] t ht' c hc with h | h
          · simp at h
          · exact Or.inr (List.mem_cons_of_mem x h)
    · rw [if_neg hx] at ht
      rcases ih (x :: cur) t ht c hc with h | h
      · rcases List.mem_cons.mp h with rfl | h'
        · exact Or.inr (List.mem_cons_self c r)
        · exact Or.inl h'
      · exact Or.inr (List.mem_cons_of_mem x h)

/-- A `str.split()` token occurs in the input with whitespace (or an end
of the string) on both sides. -/
theorem pysplitGo_mem_decomp (t : Str) :
    ∀ (s cur : Str), t ∈ pysplitGo cur s →
      (∃ pre b, s = pre ++ b ∧ t = cur.reverse ++ pre ∧
        (b = [] ∨ ∃ x r, b = x :: r ∧ isWS x = true))
      ∨ (∃ a b, s = a ++ (t ++ b) ∧ (∃ x, a.getLast? = some x ∧ isWS x = true) ∧
          (b = [] ∨ ∃ x r, b = x :: r ∧ isWS x = true)) := by
  intro s
  induction s with
  | nil =>
    intro cur ht
    rw [pysplitGo] at ht
    by_cases h0 : cur = []
    · rw [if_pos h0] at ht
      simp at ht
    · rw [if_neg h0] at ht
      rw [List.mem_singleton] at ht
      exact Or.inl ⟨[], [], rfl, by rw [ht, List.append_nil], Or.inl rfl⟩
  | cons c r ih =>
    intro cur ht
    rw [pysplitGo] at ht
    by_cases hc : isWS c = true
    · rw [if_pos hc] at ht
      have hrec : t ∈ pysplitGo [] r →
          ∃ a b, c :: r = a ++ (t ++ b) ∧ (∃ x, a.getLast? = some x ∧ isWS x = true) ∧
            (b = [] ∨ ∃ x r', b = x :: r' ∧ isWS x = true) := by
        intro ht'
        rcases ih [] ht' with ⟨pre, b, hr, htok, hb⟩ | ⟨a, b, hr, ha, hb⟩
        · simp only [List.reverse_nil, List.nil_append] at htok
          subst htok
          exact ⟨[c], b, by rw [hr]; rfl, ⟨c, rfl, hc⟩, hb⟩
        · refine ⟨c :: a, b, by rw [hr, List.cons_append], ?_, hb⟩
          obtain ⟨x, hx, hxws⟩ := ha
          obtain ⟨a0, rfl⟩ := getLast?_some_concat hx
          exact ⟨x, List.getLast?_concat (c :: a0), hxws⟩
      by_cases h0 : cur = []
      · rw [if_pos h0] at ht
        exact Or.inr (hrec ht)
      · rw [if_neg h0] at ht
        rcases List.mem_cons.mp ht with rfl | ht'
        · exact Or.inl ⟨[], c :: r, rfl, by rw [List.append_nil], Or.inr ⟨c, r, rfl, hc⟩⟩
        · exact Or.inr (hrec ht')
    · rw [if_neg hc] at ht
      rcases ih (c :: cur) ht with ⟨pre, b, hr, htok, hb⟩ | ⟨a, b, hr, ha, hb⟩
      · refine Or.inl ⟨c :: pre, b, by rw [hr, List.cons_append], ?_, hb⟩
        rw [htok]
        simp
      · refine Or.inr ⟨c :: a, b, by rw [hr, List.cons_append], ?_, hb⟩
        obtain ⟨x, hx, hxws⟩ := ha
        obtain ⟨a0, rfl⟩ := getLast?_some_concat hx
        exact ⟨x, List.getLast?_concat (c :: a0), hxws⟩

theorem pysplit_mem_decomp (t s : Str) (ht : t ∈ pysplit s) :
    ∃ a b, s = a ++ (t ++ b) ∧
      (a = [] ∨ ∃ x, a.getLast? = some x ∧ isWS x = true) ∧
      (b = [] ∨ ∃ x r, b = x :: r ∧ isWS x = true) := by
  rcases pysplitGo_mem_decomp t s [] ht with ⟨pre, b, hr, htok, hb⟩ | ⟨a, b, hr, ha, hb⟩
  · simp only [List.reverse_nil, List.nil_append] at htok
    subst htok
    exact ⟨[], b, by simpa using hr, Or.inl rfl, hb⟩
  · exact ⟨a, b, hr, Or.inr ha, hb⟩

/-- Every token of `str.split()` occurs in the input as a whole word. -/
theorem pysplit_mem_hasWW (t s : Str) (ht : t ∈ pysplit s) : hasWW t s = true := by
  obtain ⟨a, b, hs, ha, hb⟩ := pysplit_mem_decomp t s ht
  rw [hasWW_iff]
  refine ⟨a, b, hs, ?_, ?_⟩
  · rcases ha with rfl | ⟨x, hx, hws⟩
    · rfl
    · rw [hx]
      simp [boundaryOk, isWS_not_isWordChar hws]
  · rcases hb with rfl | ⟨x, r, rfl, hws⟩
    · rfl
    · simp [boundaryOk, isWS_not_isWordChar hws]

theorem pysplit_mem_facts (t s : Str) (ht : t ∈ pysplit s) :
    t ≠ [] ∧ (∀ c ∈ t, isWS c = false) ∧ (∀ c ∈ t, c ∈ s) := by
  obtain ⟨h1, h2⟩ := pysplitGo_mem_no_ws s [] t (by simp) ht
  refine ⟨h1, h2, fun c hc => ?_⟩
  rcases pysplitGo_mem_subset s [] t ht c hc with h | h
  · simp at h
  · exact h

/-! Persistence of the sub-family regex matches under appending ` w`. -/

theorem matchLit_append (lit s ext v : Str) (h : matchLit lit s = some v) :
    matchLit lit (s ++ ext) = some (v ++ ext) := by
  unfold matchLit at h ⊢
  by_cases hp : lit.isPrefixOf s = true
  · rw [if_pos hp] at h
    have hp2 : lit.isPrefixOf (s ++ ext) = true := by
      rw [List.isPrefixOf_iff_prefix] at hp ⊢
      exact hp.trans (List.prefix_append s ext)
    rw [if_pos hp2,
      List.drop_append_of_le_length (List.isPrefixOf_iff_prefix.mp hp).length_le,
      Option.some_inj.mp h]
  · rw [if_neg hp] at h
    cases h

theorem matchLit_src_ne_nil {lit s v : Str} (h : matchLit lit s = some v)
    (hl : lit ≠ []) : s ≠ [] := by
  intro h0
  subst h0
  rw [matchLit] at h
  by_cases hp : lit.isPrefixOf ([] : Str) = true
  · rw [List.isPrefixOf_iff_prefix, List.prefix_nil] at hp
    exact hl hp
  · rw [if_neg hp] at h
    cases h

theorem matchWS1_append {s v : Str} (ext : Str) (h : matchWS1 s = some v)
    (hv : v ≠ []) : matchWS1 (s ++ ext) = some (v ++ ext) := by
  cases s with
  | nil => cases h
  | cons c r =>
    rw [matchWS1] at h
    by_cases hc : isWS c = true
    · rw [if_pos hc] at h
      rw [List.cons_append, matchWS1, if_pos hc, List.dropWhile_append,
        Option.some_inj.mp h]
      cases v with
      | nil => exact absurd rfl hv
      | cons x v' => rw [if_neg (by simp)]
    · rw [if_neg hc] at h
      cases h

theorem skipWS_append {s : Str} (ext : Str) (h : skipWS s ≠ []) :
    skipWS (s ++ ext) = skipWS s ++ ext := by
  unfold skipWS at h ⊢
  rw [List.dropWhile_append, if_neg (by simpa using h)]

theorem search1_some_suffix {α : Type} {m : Str → Option α} {v : α} :
    ∀ {s : Str}, search1 m s = some v → ∃ s', s' <:+ s ∧ m s' = some v := by
  intro s
  induction s with
  | nil =>
    intro h
    exact ⟨[], List.suffix_refl [], by simpa [search1] using h⟩
  | cons c r ih =>
    intro h
    rw [search1] at h
    rcases hm : m (c :: r) with - | w
    · rw [hm] at h
      obtain ⟨s', hsuf, hms⟩ := ih h
      exact ⟨s', hsuf.trans (List.suffix_cons c r), hms⟩
    · rw [hm] at h
      dsimp only at h
      exact ⟨c :: r, List.suffix_refl _, hm.trans h⟩

theorem search1_isSome_suffix {α : Type} {m : Str → Option α} {v : α} {s' s : Str}
    (hm : m s' = some v) (hsuf : s' <:+ s) : (search1 m s).isSome = true := by
  obtain ⟨t, rfl⟩ := hsuf
  induction t with
  | nil =>
    rw [List.nil_append]
    cases s' with
    | nil => simp [search1, hm]
    | cons c r =>
      rw [search1, hm]
      rfl
  | cons c t' ih =>
    rw [List.cons_append, search1]
    rcases hmc : m (c :: (t' ++ s')) with - | w
    · exact ih
    · rfl

theorem gzSubAt_append (sub s u : Str) (hsub : sub ≠ [])
    (h : gzSubAt sub s = some ()) :
    gzSubAt sub (s ++ ' ' :: u) = some () := by
  unfold gzSubAt at h ⊢
  rw [Option.bind_eq_some] at h
  obtain ⟨r, h0, h⟩ := h
  rw [Option.bind_eq_some] at h
  obtain ⟨r1, h1, h⟩ := h
  rw [Option.bind_eq_some] at h
  obtain ⟨r2, h2, h⟩ := h
  rw [Option.bind_eq_some] at h
  obtain ⟨r3, h3, h⟩ := h
  rw [Option.bind_eq_some] at h
  obtain ⟨r4, h4, h⟩ := h
  have hb : boundaryOk r4.head? = true := by
    by_cases hb : boundaryOk r4.head? = true
    · exact hb
    · rw [if_neg hb] at h
      cases h
  have hr1ne : r1 ≠ [] := matchLit_src_ne_nil h2 (by decide)
  have hr3ne : r3 ≠ [] := matchLit_src_ne_nil h4 hsub
  rw [Option.bind_eq_some]
  refine ⟨r ++ ' ' :: u, matchLit_append _ _ _ _ h0, ?_⟩
  rw [Option.bind_eq_some]
  refine ⟨r1 ++ ' ' :: u, matchWS1_append _ h1 hr1ne, ?_⟩
  rw [Option.bind_eq_some]
  refine ⟨r2 ++ ' ' :: u, matchLit_append _ _ _ _ h2, ?_⟩
  rw [Option.bind_eq_some]
  refine ⟨r3 ++ ' ' :: u, matchWS1_append _ h3 hr3ne, ?_⟩
  rw [Option.bind_eq_some]
  refine ⟨r4 ++ ' ' :: u, matchLit_append _ _ _ _ h4, ?_⟩
  cases r4 with
  | nil => exact if_pos boundaryOk_space
  | cons x r4' => exact if_pos (by simpa using hb)

theorem gSubDigAt_append (sub s u : Str) (hsub : sub ≠ [])
    (h : gSubDigAt sub s = some ()) :
    gSubDigAt sub (s ++ ' ' :: u) = some () := by
  unfold gSubDigAt at h ⊢
  rw [Option.bind_eq_some] at h
  obtain ⟨r, h0, h⟩ := h
  rw [Option.bind_eq_some] at h
  obtain ⟨r1, h1, h⟩ := h
  rw [Option.bind_eq_some] at h
  obtain ⟨r2, h2, h⟩ := h
  have hd : ((skipWS r2).head?.any isDig) = true := by
    by_cases hd : ((skipWS r2).head?.any isDig) = true
    · exact hd
    · rw [if_neg hd] at h
      cases h
  have hr1ne : r1 ≠ [] := matchLit_src_ne_nil h2 hsub
  have hskne : skipWS r2 ≠ [] := by
    intro h0'
    rw [h0'] at hd
    simp at hd
  rw [Option.bind_eq_some]
  refine ⟨r ++ ' ' :: u, matchLit_append _ _ _ _ h0, ?_⟩
  rw [Option.bind_eq_some]
  refine ⟨r1 ++ ' ' :: u, matchWS1_append _ h1 hr1ne, ?_⟩
  rw [Option.bind_eq_some]
  refine ⟨r2 ++ ' ' :: u, matchLit_append _ _ _ _ h2, ?_⟩
  rw [skipWS_append _ hskne]
  cases hsk : skipWS r2 with
  | nil => exact absurd hsk hskne
  | cons x xs =>
    rw [hsk] at hd
    exact if_pos (by simpa using hd)

/-- A sub-family match (either regex form) survives appending ` w`. -/
theorem has_sub_family_mono (text sub w : Str) (hsub : sub ≠ [])
    (h : has_sub_family text sub = true) :
    has_sub_family (text ++ ' ' :: w) sub = true := by
  unfold has_sub_family at h ⊢
  split_ifs at h ⊢ with hff
  · rw [Option.isSome_iff_exists] at h
    obtain ⟨v, hv⟩ := h
    obtain ⟨s', hsuf, hm⟩ := search1_some_suffix hv
    cases v
    have hm' : gzSubAt sub (s' ++ ' ' :: w) = some () :=
      gzSubAt_append sub s' w hsub hm
    have hsuf' : s' ++ ' ' :: w <:+ text ++ ' ' :: w := by
      obtain ⟨p, rfl⟩ := hsuf
      exact ⟨p, (List.append_assoc p s' (' ' :: w)).symm⟩
    exact search1_isSome_suffix hm' hsuf'
  · rw [Option.isSome_iff_exists] at h
    obtain ⟨v, hv⟩ := h
    obtain ⟨s', hsuf, hm⟩ := search1_some_suffix hv
    cases v
    have hm' : gSubDigAt sub (s' ++ ' ' :: w) = some () :=
      gSubDigAt_append sub s' w hsub hm
    have hsuf' : s' ++ ' ' :: w <:+ text ++ ' ' :: w := by
      obtain ⟨p, rfl⟩ := hsuf
      exact ⟨p, (List.append_assoc p s' (' ' :: w)).symm⟩
    exact search1_isSome_suffix hm' hsuf'

/-! Monotonicity of the individual score components under appending ` w`. -/

theorem NearSpec_append (text w : Str) (qi : QueryInfo) (hw : w ≠ [])
    (hws : ∀ c ∈ w, isWS c = false) (h : NearSpec text qi) :
    NearSpec (text ++ ' ' :: w) qi := by
  have hsplit := pysplit_append_sep text w hw hws
  simp only [NearSpec] at h ⊢
  by_cases hs : qi.samsung_sub = []
  · simp only [hs, ne_eq, not_true_eq_false, if_false] at h ⊢
    by_cases hp : qi.product_line = []
    · simp only [hp, ne_eq, not_true_eq_false, if_false] at h
    · simp only [hp, ne_eq, not_false_eq_true, if_true] at h ⊢
      obtain ⟨i, tok, hget, h1, h2⟩ := h
      obtain ⟨hlt, -⟩ := List.getElem?_eq_some.mp hget
      refine ⟨i, tok, ?_, h1, ?_⟩
      · rw [hsplit, List.getElem?_append, if_pos hlt]
        exact hget
      · rcases h2 with h2 | h2
        · left
          rw [hsplit, List.drop_append_of_le_length (by omega),
            List.take_append_eq_append_take]
          exact List.mem_append_left _ h2
        · right
          exact h2
  · simp only [hs, ne_eq, not_false_eq_true, if_true] at h ⊢
    obtain ⟨i, tok, hget, h1, h2⟩ := h
    obtain ⟨hlt, -⟩ := List.getElem?_eq_some.mp hget
    refine ⟨i, tok, ?_, h1, ?_⟩
    · rw [hsplit, List.getElem?_append, if_pos hlt]
      exact hget
    · rw [hsplit, List.drop_append_of_le_length (by omega),
        List.take_append_eq_append_take]
      exact List.mem_append_left _ h2

theorem model_near_mono (text w : Str) (qi : QueryInfo) (hw : w ≠ [])
    (hws : ∀ c ∈ w, isWS c = false) (h : model_near text qi = true) :
    model_near (text ++ ' ' :: w) qi = true := by
  rw [model_near_iff] at h ⊢
  exact NearSpec_append text w qi hw hws h

theorem modelScore_mono (combined w : Str) (qi : QueryInfo) (hw : w ≠ [])
    (hws : ∀ c ∈ w, isWS c = false) :
    modelScore combined qi ≤ modelScore (combined ++ ' ' :: w) qi := by
  unfold modelScore
  by_cases h1 : model_near combined qi = true
  · rw [if_pos h1, if_pos (model_near_mono combined w qi hw hws h1)]
  · rw [if_neg h1]
    by_cases h2 : hasWW qi.model_number combined = true
    · rw [if_pos h2]
      by_cases h3 : model_near (combined ++ ' ' :: w) qi = true
      · rw [if_pos h3]
        omega
      · rw [if_neg h3, if_pos (hasWW_append_sep _ _ _ h2)]
    · rw [if_neg h2]
      by_cases h3 : model_near (combined ++ ' ' :: w) qi = true
      · rw [if_pos h3]
        omega
      · rw [if_neg h3]
        by_cases h4 : hasWW qi.model_number (combined ++ ' ' :: w) = true
        · rw [if_pos h4]
          omega
        · rw [if_neg h4]

theorem match_score_mono (text w : Str) (tokens : List Str) :
    match_score text tokens ≤ match_score (text ++ ' ' :: w) tokens := by
  unfold match_score
  rw [← List.countP_eq_length_filter, ← List.countP_eq_length_filter]
  exact List.countP_mono_left fun t _ ht => hasWW_append_sep t text w ht

theorem tokenComponent_mono (qi : QueryInfo) (combined w : Str) :
    tokenComponent qi combined ≤ tokenComponent qi (combined ++ ' ' :: w) := by
  unfold tokenComponent
  have := match_score_mono combined w qi.search_tokens
  omega

theorem brandComponent_mono (qi : QueryInfo) (combined w : Str) :
    brandComponent qi combined ≤ brandComponent qi (combined ++ ' ' :: w) := by
  unfold brandComponent
  cases qi.brand with
  | none => exact le_refl 0
  | some b =>
    dsimp only
    by_cases h : (!(b = []) && isSubstr b combined) = true
    · rw [Bool.and_eq_true] at h
      rw [if_pos (show (!(b = []) && isSubstr b combined) = true by
            rw [Bool.and_eq_true]; exact h),
        if_pos (show (!(b = []) && isSubstr b (combined ++ ' ' :: w)) = true by
            rw [Bool.and_eq_true]
            exact ⟨h.1, isSubstr_append_right b combined _ h.2⟩)]
    · rw [if_neg h]
      split_ifs <;> omega

theorem lineComponent_mono (qi : QueryInfo) (combined w : Str) :
    lineComponent qi combined ≤ lineComponent qi (combined ++ ' ' :: w) := by
  unfold lineComponent
  by_cases h : (!(qi.product_line = []) && isSubstr qi.product_line combined) = true
  · rw [Bool.and_eq_true] at h
    rw [if_pos (show (!(qi.product_line = []) && isSubstr qi.product_line combined) = true by
          rw [Bool.and_eq_true]; exact h),
      if_pos (show (!(qi.product_line = [])
            && isSubstr qi.product_line (combined ++ ' ' :: w)) = true by
          rw [Bool.and_eq_true]
          exact ⟨h.1, isSubstr_append_right _ combined _ h.2⟩)]
  · rw [if_neg h]
    split_ifs <;> omega

theorem catComponent_mono (combined w : Str) :
    catComponent combined ≤ catComponent (combined ++ ' ' :: w) := by
  unfold catComponent
  by_cases h : categoryWords.any (fun x => isSubstr x combined) = true
  · rw [if_pos h]
    rw [List.any_eq_true] at h
    obtain ⟨x, hx, hsub⟩ := h
    rw [if_pos (List.any_eq_true.mpr ⟨x, hx, isSubstr_append_right x combined _ hsub⟩)]
  · rw [if_neg h]
    split_ifs <;> omega

theorem mComponent_mono (qi : QueryInfo) (combined w : Str) (hw : w ≠ [])
    (hws : ∀ c ∈ w, isWS c = false) :
    mComponent qi combined ≤ mComponent qi (combined ++ ' ' :: w) := by
  unfold mComponent
  by_cases h : qi.model_number = []
  · rw [if_pos h, if_pos h]
  · rw [if_neg h, if_neg h]
    exact modelScore_mono combined w qi hw hws

theorem subComponent_mono (qi : QueryInfo) (combined w : Str) :
    subComponent qi combined ≤ subComponent qi (combined ++ ' ' :: w) := by
  unfold subComponent
  by_cases h : qi.samsung_sub = []
  · rw [if_pos h, if_pos h]
  · rw [if_neg h, if_neg h]
    by_cases h2 : has_sub_family combined qi.samsung_sub = true
    · rw [if_pos h2, if_pos (has_sub_family_mono combined qi.samsung_sub w h h2)]
    · rw [if_neg h2]
      split_ifs <;> omega

theorem variant_tokens_word :
    ∀ vt ∈ VARIANT_TOKENS, ∀ c ∈ vt, isWordChar c = true := by decide

theorem length_filter_not_add {α : Type} (p : α → Bool) (l : List α) :
    (l.filter p).length + (l.filter (fun a => !p a)).length = l.length := by
  induction l with
  | nil => rfl
  | cons x l ih =>
    rw [List.filter_cons, List.filter_cons]
    by_cases h : p x = true
    · rw [if_pos h, if_neg (by simp [h])]
      simp only [List.length_cons]
      omega
    · rw [if_neg h, if_pos (by simp [Bool.eq_false_iff.mpr h])]
      simp only [List.length_cons]
      omega

theorem variantScore_mono (combined w : Str) (qi : QueryInfo)
    (hwword : ∀ c ∈ w, isWordChar c = true)
    (hvar : w ∈ VARIANT_TOKENS → w ∈ qi.variant_tokens) :
    variantScore combined qi ≤ variantScore (combined ++ ' ' :: w) qi := by
  simp only [variantScore]
  set E := qi.variant_tokens.dedup with hE
  set P := VARIANT_TOKENS.filter (fun vt => hasWW vt combined) with hP
  set P' := VARIANT_TOKENS.filter (fun vt => hasWW vt (combined ++ ' ' :: w)) with hP'
  have hPP' : ∀ vt, vt ∈ P → vt ∈ P' := by
    intro vt hvt
    rw [hP] at hvt
    rw [hP']
    rw [List.mem_filter] at hvt ⊢
    exact ⟨hvt.1, hasWW_append_sep vt combined w hvt.2⟩
  have hkey : (E.filter (fun vt => P.contains vt)).length
      ≤ (E.filter (fun vt => P'.contains vt)).length := by
    rw [← List.countP_eq_length_filter, ← List.countP_eq_length_filter]
    exact List.countP_mono_left fun vt _ hc =>
      List.elem_iff.mpr (hPP' vt (List.elem_iff.mp hc))
  have hs1 := length_filter_not_add (fun vt => P.contains vt) E
  have hs2 := length_filter_not_add (fun vt => P'.contains vt) E
  have hU : P'.filter (fun vt => !E.contains vt)
      = P.filter (fun vt => !E.contains vt) := by
    rw [hP, hP', List.filter_filter, List.filter_filter]
    refine List.filter_congr fun vt hvt => ?_
    by_cases hEc : E.contains vt = true
    · rw [hEc]
      rfl
    · have hvtne : vt ≠ w := by
        intro h0
        subst h0
        exact hEc (List.elem_iff.mpr (List.mem_dedup.mpr (hvar hvt)))
      have hEq : hasWW vt (combined ++ ' ' :: w) = hasWW vt combined := by
        by_cases hc : hasWW vt combined = true
        · rw [hc, hasWW_append_sep vt combined w hc]
        · have hf2 : hasWW vt (combined ++ ' ' :: w) = false := by
            rw [Bool.eq_false_iff]
            intro hc2
            rcases hasWW_append_elim vt combined w (variant_tokens_word vt hvt)
                hwword hc2 with h | h
            · exact hc h
            · exact hvtne h
          rw [hf2, Bool.eq_false_iff.mpr hc]
      rw [hEq]
  rw [hU]
  omega

/-- A query search token is a clean word: nonempty, whitespace-free, all
word characters; and if it is a variant token it is an expected variant of
the query (it occurs as a whole word in the normalized query). -/
theorem search_token_facts (q w : Str)
    (hw : w ∈ (QueryInfo.fromQuery q).search_tokens) :
    w ≠ [] ∧ (∀ c ∈ w, isWS c = false) ∧ (∀ c ∈ w, isWordChar c = true) ∧
      (w ∈ VARIANT_TOKENS → w ∈ (QueryInfo.fromQuery q).variant_tokens) := by
  have hst : (QueryInfo.fromQuery q).search_tokens = tokenize (normalizeL q) := rfl
  have hvt : (QueryInfo.fromQuery q).variant_tokens
      = extract_variants (normalizeL q) := rfl
  rw [hst] at hw
  unfold tokenize at hw
  have hmem : w ∈ pysplit (normalizeL q) := (List.mem_filter.mp hw).1
  obtain ⟨hne, hnws, hsub⟩ := pysplit_mem_facts w _ hmem
  refine ⟨hne, hnws, ?_, ?_⟩
  · intro c hc
    have hok := (normalizeL_normalized q).1 c (hsub c hc)
    simp only [okChar, Bool.or_eq_true, decide_eq_true_eq] at hok
    rcases hok with hg | hsp
    · exact isGood_isWordChar hg
    · subst hsp
      exact absurd (hnws ' ' hc) (by simp [isWS_space])
  · intro hv
    rw [hvt]
    unfold extract_variants
    exact List.mem_filter.mpr ⟨hv, pysplit_mem_hasWW w _ hmem⟩

/-- Appending one word matching a query search token to the scored text
never decreases the additive score of `_evaluate_card`. -/
theorem cardScore_mono (q tn cn w : Str)
    (hw : w ∈ (QueryInfo.fromQuery q).search_tokens) :
    cardScore (QueryInfo.fromQuery q) (combineParts tn cn)
      ≤ cardScore (QueryInfo.fromQuery q) (combineParts tn (cn ++ ' ' :: w)) := by
  obtain ⟨hne, hnws, hword, hvar⟩ := search_token_facts q w hw
  have hcomb : combineParts tn (cn ++ ' ' :: w) = combineParts tn cn ++ ' ' :: w := by
    unfold combineParts
    simp [List.append_assoc]
  rw [hcomb]
  set qi := QueryInfo.fromQuery q with hqi
  set c := combineParts tn cn with hc
  unfold cardScore
  have h1 := tokenComponent_mono qi c w
  have h2 := brandComponent_mono qi c w
  have h3 := lineComponent_mono qi c w
  have h4 := mComponent_mono qi c w hne hnws
  have h5 := subComponent_mono qi c w
  have h6 := variantScore_mono c w qi hword hvar
  have h7 := catComponent_mono c w
  omega

/-- Inversion: an accepted card's reported score is `cardScore` of its
combined text. -/
theorem evaluateParts_score {qi : QueryInfo} {tn cn rl : Str} {hl : Bool}
    {s : Int} {ok : Bool}
    (h : evaluateParts qi tn cn rl hl = some (s, ok)) :
    s = cardScore qi (combineParts tn cn) := by
  simp only [evaluateParts] at h
  split_ifs at h <;>
    first
      | exact Option.noConfusion h
      | exact (congrArg Prod.fst (Option.some_inj.mp h)).symm

/-- C9 counterexample: for the query "iphone 17 2 pack", the word "2" is
one of its search tokens; the candidate raw text "smartphone apple iphone
17 bonus iphone" is accepted with score 30, yet extending the text with
that matching word turns the candidate into a hard reject (the appended
"2" lands in the conflict window after the second "iphone" anchor token,
where no "17" follows), so the extension turns an accepted candidate into
a rejected one. -/
theorem C9_counterexample :
    "2".data ∈ (QueryInfo.fromQuery "iphone 17 2 pack".data).search_tokens ∧
    "smartphone apple iphone 17 bonus iphone 2".data
      = "smartphone apple iphone 17 bonus iphone".data ++ ' ' :: "2".data ∧
    evaluate_card (QueryInfo.fromQuery "iphone 17 2 pack".data) []
      "smartphone apple iphone 17 bonus iphone".data true = some (30, true) ∧
    evaluate_card (QueryInfo.fromQuery "iphone 17 2 pack".data) []
      "smartphone apple iphone 17 bonus iphone 2".data true = none :=
  ⟨by decide, by decide, by decide, by decide⟩

/-- C9 (amended): appending one additional word that matches a query
search token to the candidate's scored texts (normalized card text and
raw lowercase text, all else unchanged) never decreases the additive
score: whenever both the original and the extended candidate are accepted
by `_evaluate_card`, the extended score is at least the original score.
The second half of the original claim — that an accepted candidate never
becomes rejected — is false (see `C9_counterexample`): the appended token
can trigger the conflicting-model hard reject. -/
theorem C9_score_monotonicity (q tn cn rl rl2 : Str) (hl : Bool) (w : Str)
    (hw : w ∈ (QueryInfo.fromQuery q).search_tokens)
    {s s2 : Int} {ok ok2 : Bool}
    (hbase : evaluateParts (QueryInfo.fromQuery q) tn cn rl hl = some (s, ok))
    (hext : evaluateParts (QueryInfo.fromQuery q) tn (cn ++ ' ' :: w) rl2 hl
      = some (s2, ok2)) :
    s ≤ s2 := by
  rw [evaluateParts_score hbase, evaluateParts_score hext]
  exact cardScore_mono q tn cn w hw

/-- Witness for C9: a concrete accepted base card (score 30) whose
extension by the search token "pack" is accepted with the larger
score 32. -/
theorem C9_witness :
    evaluateParts (QueryInfo.fromQuery "iphone 17 2 pack".data) []
      (normalizeL "apple iphone 17 smartphone".data)
      (List.map lowerChar "apple iphone 17 smartphone".data) true = some (30, true) ∧
    evaluateParts (QueryInfo.fromQuery "iphone 17 2 pack".data) []
      (normalizeL "apple iphone 17 smartphone".data ++ ' ' :: "pack".data)
      (List.map lowerChar "apple iphone 17 smartphone".data) true = some (32, true) ∧
    (30 : Int) ≤ 32 := by
  have hbase : evaluateParts (QueryInfo.fromQuery "iphone 17 2 pack".data) []
      (normalizeL "apple iphone 17 smartphone".data)
      (List.map lowerChar "apple iphone 17 smartphone".data) true
      = some (30, true) := by decide
  have hext : evaluateParts (QueryInfo.fromQuery "iphone 17 2 pack".data) []
      (normalizeL "apple iphone 17 smartphone".data ++ ' ' :: "pack".data)
      (List.map lowerChar "apple iphone 17 smartphone".data) true
      = some (32, true) := by decide
  exact ⟨hbase, hext,
    C9_score_monotonicity "iphone 17 2 pack".data []
      (normalizeL "apple iphone 17 smartphone".data)
      (List.map lowerChar "apple iphone 17 smartphone".data)
      (List.map lowerChar "apple iphone 17 smartphone".data) true "pack".data
      (by decide) hbase hext⟩

end Otto





